import Mathlib

/-!
# Verification of the `@repo/signals` reactive runtime

Shallow embedding of `src/packages/signals/src/signals.ts` (Signal,
ComputedSignal, Effect, batch, untrack) and
`src/packages/signals/src/async-signals.ts` (AsyncComputed), together with
proofs settling the frozen claims about the natural-language specification.

Modelling conventions:
* JavaScript values are modelled by `JSVal`; objects carry only their
  reference identity (a `Nat`), since the library compares values solely
  with `!==` (strict reference inequality), which `strictEq` mirrors.
* JS `Set` is modelled as an insertion-ordered duplicate-free `List`
  (`insertL` appends if absent, deletion filters).
* User compute/effect bodies are deep-embedded as `Expr` (literals, signal
  reads, addition, fresh-object allocation, sequencing, throw).  `jsAdd`
  collapses non-numeric addition to `undef` (standing in for `NaN`).
* The heap of signals is an association list `Nat → Sig`; effects live in a
  separate table.  The ambient `currentComputation`, the batching flag, the
  pending (batched) signal set and the microtask queue are global fields of
  `St`, exactly as they are module-level globals in the source.
* Recursion through the dependency graph (a computed read may recompute,
  which notifies, which marks other computeds stale, which recompute ...)
  is made total with a fuel parameter; `ERes.fuelOut` reports exhaustion
  and is distinct from a thrown JS exception (`ERes.thrownE`) and from the
  circular-dependency error (`ERes.circular`).
* Observable behaviour (subscriber callbacks, compute-function entry,
  effect runs, dependency registrations/clears, the batch closing pass) is
  recorded in an append-only event log, newest event first.
-/

set_option maxHeartbeats 1000000

namespace Signals

/-- A JavaScript value: `undefined`, a primitive number, or an object
reference.  Object identity (the `Nat`) is what `===` compares. -/
inductive JSVal : Type
  | undef : JSVal
  | prim : Int → JSVal
  | obj : Nat → JSVal
deriving DecidableEq, Repr

/-- JS strict equality `===` as used by the library's `!==` checks:
reference identity on objects, value equality on primitives. -/
def strictEq : JSVal → JSVal → Bool
  | JSVal.undef, JSVal.undef => true
  | JSVal.prim a, JSVal.prim b => a == b
  | JSVal.obj a, JSVal.obj b => a == b
  | _, _ => false

/-- Addition on modelled JS values; non-numeric operands collapse to
`undef` (standing in for `NaN`). -/
def jsAdd : JSVal → JSVal → JSVal
  | JSVal.prim a, JSVal.prim b => JSVal.prim (a + b)
  | _, _ => JSVal.undef

/-- Reference to a Computation: a ComputedSignal (by signal id) or an
Effect (by effect id).  This is what `currentComputation` and the
`computedSignals` dependent sets hold. -/
inductive CompRef : Type
  | comp : Nat → CompRef
  | eff : Nat → CompRef
deriving DecidableEq, Repr

/-- Deep-embedded user code for compute functions and effect bodies. -/
inductive Expr : Type
  | lit : JSVal → Expr
  | readSig : Nat → Expr
  | plus : Expr → Expr → Expr
  | seqE : Expr → Expr → Expr
  | freshObj : Expr
  | throwE : Nat → Expr
deriving DecidableEq, Repr

/-- Observable events, newest first in the log. -/
inductive Event : Type
  | subCalled : Nat → Nat → JSVal → Event    -- signal id, subscriber id, value
  | computeEnter : Nat → Event               -- computed id: compute fn invoked
  | effRun : Nat → Event                     -- effect id: body invoked
  | effErr : Nat → Nat → Event               -- effect id, error code routed to onError
  | reg : CompRef → Nat → Event              -- dependency registered (addDependency)
  | cleared : CompRef → Event                -- clearDependencies executed
  | staleCall : CompRef → Event              -- markStale invoked on a dependent
  | stalePass : Nat → Event                  -- batch closing pass visits pending signal
  | batchClosed : Event                      -- batch closing pass begins
deriving DecidableEq, Repr

/-- Result of a modelled operation: normal value, thrown JS error (code),
the circular-dependency error, or fuel exhaustion (a model artifact). -/
inductive ERes (α : Type) : Type
  | ok : α → ERes α
  | thrownE : Nat → ERes α
  | circular : ERes α
  | fuelOut : ERes α
deriving DecidableEq, Repr

/-- A signal record (`Signal` / `ComputedSignal` merged: `isComp` marks a
ComputedSignal, whose extra fields are meaningful only then). -/
structure Sig : Type where
  value : JSVal
  subscribers : List Nat
  computedSignals : List CompRef   -- dependents (Staleable set)
  isComp : Bool
  computeFn : Expr
  dependencies : List Nat
  isStale : Bool
  isComputing : Bool
deriving DecidableEq, Repr

/-- An Effect record. -/
structure EffRec : Type where
  effectFn : Expr
  dependencies : List Nat
  isRunning : Bool
  isDisposed : Bool
deriving DecidableEq, Repr

/-- Global runtime state. -/
structure St : Type where
  sigs : List (Nat × Sig)
  effs : List (Nat × EffRec)
  currentComputation : Option CompRef
  isBatching : Bool
  batchedSignals : List Nat
  mtq : List Nat                    -- microtask queue: queued effect ids
  nextRef : Nat                     -- fresh object-reference counter
  log : List Event                  -- newest first
deriving DecidableEq, Repr

/-- Insertion-ordered set insert (JS `Set.add`). -/
def insertL {α : Type} [DecidableEq α] (x : α) (l : List α) : List α :=
  if x ∈ l then l else l ++ [x]

/-- Association-list lookup. -/
def lookupA {α : Type} (l : List (Nat × α)) (i : Nat) : Option α :=
  match l with
  | [] => none
  | (j, a) :: rest => if j = i then some a else lookupA rest i

/-- Association-list pointwise update (no-op if the key is absent). -/
def updateA {α : Type} (l : List (Nat × α)) (i : Nat) (f : α → α) :
    List (Nat × α) :=
  match l with
  | [] => []
  | (j, a) :: rest =>
      if j = i then (j, f a) :: rest else (j, a) :: updateA rest i f

def lookupSig (st : St) (i : Nat) : Option Sig := lookupA st.sigs i

def lookupEff (st : St) (e : Nat) : Option EffRec := lookupA st.effs e

def updSig (st : St) (i : Nat) (f : Sig → Sig) : St :=
  { st with sigs := updateA st.sigs i f }

def updEff (st : St) (e : Nat) (f : EffRec → EffRec) : St :=
  { st with effs := updateA st.effs e f }

/-- Append an event to the log (newest first). -/
def logE (st : St) (ev : Event) : St := { st with log := ev :: st.log }

/-- Dependency list of a Computation (totalized: missing → `[]`). -/
def depsOf (st : St) (d : CompRef) : List Nat :=
  match d with
  | CompRef.comp i => ((lookupSig st i).map Sig.dependencies).getD []
  | CompRef.eff e => ((lookupEff st e).map EffRec.dependencies).getD []

/-- Dependents list (`computedSignals`) of a signal (totalized). -/
def dependentsOf (st : St) (s : Nat) : List CompRef :=
  ((lookupSig st s).map Sig.computedSignals).getD []

/-- Whether a Computation reference denotes a live entry. -/
def compLive (st : St) (d : CompRef) : Bool :=
  match d with
  | CompRef.comp i => ((lookupSig st i).map Sig.isComp).getD false
  | CompRef.eff e => (lookupEff st e).isSome

/-- Bidirectional-edge consistency plus duplicate-freedom of the edge
sets: a Computation's dependency set and the Cells' dependent sets are
exact mirror images. -/
def consistent (st : St) : Prop :=
  (∀ d s, s ∈ depsOf st d ↔ d ∈ dependentsOf st s) ∧
  (∀ s, (dependentsOf st s).Nodup) ∧
  (∀ d, (depsOf st d).Nodup)

/-! Named record updaters (the anonymous lambdas of the source's field
assignments), named so proofs can refer to them syntactically. -/

def fnAddDep (s : Nat) : Sig → Sig :=
  fun g => { g with dependencies := insertL s g.dependencies }

def fnAddDepE (s : Nat) : EffRec → EffRec :=
  fun g => { g with dependencies := insertL s g.dependencies }

def fnAddDependent (d : CompRef) : Sig → Sig :=
  fun g => { g with computedSignals := insertL d g.computedSignals }

def fnClearDeps : Sig → Sig := fun g => { g with dependencies := [] }

def fnClearDepsE : EffRec → EffRec := fun g => { g with dependencies := [] }

def fnFilterDependent (d : CompRef) : Sig → Sig :=
  fun g => { g with computedSignals := g.computedSignals.filter (· ≠ d) }

def fnStartCompute : Sig → Sig :=
  fun g => { g with isComputing := true, isStale := false }

def fnEndCompute : Sig → Sig := fun g => { g with isComputing := false }

def fnSetStale : Sig → Sig := fun g => { g with isStale := true }

def fnSetVal (v : JSVal) : Sig → Sig := fun g => { g with value := v }

def fnStartRun : EffRec → EffRec := fun g => { g with isRunning := true }

def fnEndRun : EffRec → EffRec := fun g => { g with isRunning := false }

/-- `Computation.addDependency(signal)` (both the ComputedSignal and the
Effect variant): add the edge on both sides if absent.  Guarded against
dangling references so that the mirror invariant is total. -/
def addDependencyP (st : St) (d : CompRef) (s : Nat) : St :=
  if compLive st d ∧ (lookupSig st s).isSome then
    let st1 :=
      match d with
      | CompRef.comp i => updSig st i (fnAddDep s)
      | CompRef.eff e => updEff st e (fnAddDepE s)
    let st2 := updSig st1 s (fnAddDependent d)
    logE st2 (Event.reg d s)
  else st

/-- `clearDependencies()`: remove this Computation from every dependency's
dependent set, then empty its own dependency set. -/
def stMapFilter (st : St) (d : CompRef) : St :=
  { st with sigs := st.sigs.map (fun p => (p.1, fnFilterDependent d p.2)) }

def clearDependenciesP (st : St) (d : CompRef) : St :=
  let st1 := stMapFilter st d
  let st2 :=
    match d with
    | CompRef.comp i => updSig st1 i fnClearDeps
    | CompRef.eff e => updEff st1 e fnClearDepsE
  logE st2 (Event.cleared d)

/-- Log one `subCalled` event per subscriber (subscriber callbacks are
modelled as pure observations; their errors are caught per-subscriber in
the source and cannot affect the runtime state). -/
def notifySubs (st : St) (i : Nat) (subs : List Nat) (v : JSVal) : St :=
  match subs with
  | [] => st
  | sub :: rest => notifySubs (logE st (Event.subCalled i sub v)) i rest v

mutual

/-- `Signal.prototype.value` getter / `ComputedSignal.prototype.value`
getter (lines 46–52 and 115–126 of signals.ts). -/
def getValue : Nat → St → Nat → St × ERes JSVal
  | 0, st, _ => (st, ERes.fuelOut)
  | fuel + 1, st, i =>
    match lookupSig st i with
    | none => (st, ERes.ok JSVal.undef)
    | some g =>
      if g.isComp then
        -- ComputedSignal getter
        let step1 : St × ERes Unit :=
          if g.isStale ∧ ¬ g.isComputing then recompute fuel st i
          else (st, ERes.ok ())
        match step1 with
        | (st1, ERes.ok _) =>
            let st2 :=
              match st1.currentComputation with
              | some d => if d ≠ CompRef.comp i then addDependencyP st1 d i else st1
              | none => st1
            (st2, ERes.ok (((lookupSig st2 i).map Sig.value).getD JSVal.undef))
        | (st1, ERes.thrownE c) => (st1, ERes.thrownE c)
        | (st1, ERes.circular) => (st1, ERes.circular)
        | (st1, ERes.fuelOut) => (st1, ERes.fuelOut)
      else
        -- base Signal getter
        let st1 :=
          match st.currentComputation with
          | some d => addDependencyP st d i
          | none => st
        (st1, ERes.ok (((lookupSig st1 i).map Sig.value).getD JSVal.undef))

termination_by structural fuel => fuel

/-- `ComputedSignal.recompute` (lines 159–189): guard and dependency
clearing; the remainder (tracking push, compute-function call, change
detection, tracking pop) lives in `recomputeTail`. -/
def recompute : Nat → St → Nat → St × ERes Unit
  | 0, st, _ => (st, ERes.fuelOut)
  | fuel + 1, st, i =>
    match lookupSig st i with
    | none => (st, ERes.ok ())
    | some g =>
      if g.isComputing then (st, ERes.circular)
      else
        let st1 := updSig st i fnStartCompute
        let st2 := clearDependenciesP st1 (CompRef.comp i)
        recomputeTail fuel st2 i g.computeFn st2.currentComputation

termination_by structural fuel => fuel

/-- Body of `ComputedSignal.recompute` after the dependency clearing
(lines 170–188): push the Tracker, invoke the compute function, compare
with the cached value, notify on change, pop the Tracker in `finally`. -/
def recomputeTail : Nat → St → Nat → Expr → Option CompRef → St × ERes Unit
  | 0, st, _, _, _ => (st, ERes.fuelOut)
  | fuel + 1, st2, i, fn, prev =>
    let st3 := { st2 with currentComputation := some (CompRef.comp i) }
    let st4 := logE st3 (Event.computeEnter i)
    match evalE fuel st4 fn with
    | (st5, ERes.ok v) =>
        let oldv := ((lookupSig st5 i).map Sig.value).getD JSVal.undef
        if strictEq oldv v then
          (updSig { st5 with currentComputation := prev } i
             fnEndCompute, ERes.ok ())
        else
          let st6 := updSig st5 i (fnSetVal v)
          match notify fuel st6 i with
          | (st7, ERes.ok _) =>
              (updSig { st7 with currentComputation := prev } i
                 fnEndCompute, ERes.ok ())
          | (st7, r) =>
              (updSig { st7 with currentComputation := prev } i
                 fnEndCompute,
               match r with
               | ERes.thrownE c => ERes.thrownE c
               | ERes.circular => ERes.circular
               | _ => ERes.fuelOut)
    | (st5, r) =>
        (updSig { st5 with currentComputation := prev } i
           fnEndCompute,
         match r with
         | ERes.thrownE c => ERes.thrownE c
         | ERes.circular => ERes.circular
         | _ => ERes.fuelOut)

termination_by structural fuel => fuel

/-- Evaluation of deep-embedded user code. -/
def evalE : Nat → St → Expr → St × ERes JSVal
  | 0, st, _ => (st, ERes.fuelOut)
  | fuel + 1, st, e =>
    match e with
    | Expr.lit v => (st, ERes.ok v)
    | Expr.readSig i => getValue fuel st i
    | Expr.plus a b =>
        match evalE fuel st a with
        | (st1, ERes.ok va) =>
            match evalE fuel st1 b with
            | (st2, ERes.ok vb) => (st2, ERes.ok (jsAdd va vb))
            | (st2, ERes.thrownE c) => (st2, ERes.thrownE c)
            | (st2, ERes.circular) => (st2, ERes.circular)
            | (st2, ERes.fuelOut) => (st2, ERes.fuelOut)
        | (st1, ERes.thrownE c) => (st1, ERes.thrownE c)
        | (st1, ERes.circular) => (st1, ERes.circular)
        | (st1, ERes.fuelOut) => (st1, ERes.fuelOut)
    | Expr.seqE a b =>
        match evalE fuel st a with
        | (st1, ERes.ok _) => evalE fuel st1 b
        | (st1, ERes.thrownE c) => (st1, ERes.thrownE c)
        | (st1, ERes.circular) => (st1, ERes.circular)
        | (st1, ERes.fuelOut) => (st1, ERes.fuelOut)
    | Expr.freshObj =>
        ({ st with nextRef := st.nextRef + 1 }, ERes.ok (JSVal.obj st.nextRef))
    | Expr.throwE c => (st, ERes.thrownE c)

termination_by structural fuel => fuel

/-- `Signal.notify` (lines 61–78): call direct subscribers, then either
record into the pending batch set or mark dependents stale (the dependent
set is iterated as a snapshot). -/
def notify : Nat → St → Nat → St × ERes Unit
  | 0, st, _ => (st, ERes.fuelOut)
  | fuel + 1, st, i =>
    match lookupSig st i with
    | none => (st, ERes.ok ())
    | some g =>
      let st1 := notifySubs st i g.subscribers g.value
      if st1.isBatching then
        ({ st1 with batchedSignals := insertL i st1.batchedSignals }, ERes.ok ())
      else
        notifyList fuel st1 g.computedSignals

termination_by structural fuel => fuel

/-- Iterate `markStale` over a snapshot of dependents; a thrown error
aborts the remaining iterations (JS `forEach` semantics for exceptions). -/
def notifyList : Nat → St → List CompRef → St × ERes Unit
  | 0, st, _ => (st, ERes.fuelOut)
  | _ + 1, st, [] => (st, ERes.ok ())
  | fuel + 1, st, d :: rest =>
      match markStaleC fuel st d with
      | (st1, ERes.ok _) => notifyList fuel st1 rest
      | (st1, ERes.thrownE c) => (st1, ERes.thrownE c)
      | (st1, ERes.circular) => (st1, ERes.circular)
      | (st1, ERes.fuelOut) => (st1, ERes.fuelOut)

termination_by structural fuel => fuel

/-- `ComputedSignal.markStale` (lines 146–157: eager recompute, then a
second change-notify) and `Effect.markStale` (lines 241–245: queue a
microtask). -/
def markStaleC : Nat → St → CompRef → St × ERes Unit
  | 0, st, _ => (st, ERes.fuelOut)
  | fuel + 1, st, d =>
    let st0 := logE st (Event.staleCall d)
    match d with
    | CompRef.eff e =>
        match lookupEff st0 e with
        | none => (st0, ERes.ok ())
        | some g =>
            if g.isDisposed then (st0, ERes.ok ())
            else ({ st0 with mtq := st0.mtq ++ [e] }, ERes.ok ())
    | CompRef.comp i =>
        match lookupSig st0 i with
        | none => (st0, ERes.ok ())
        | some g =>
            if g.isStale then (st0, ERes.ok ())
            else
              let st1 := updSig st0 i fnSetStale
              let oldv := g.value
              match recompute fuel st1 i with
              | (st2, ERes.ok _) =>
                  let newv := ((lookupSig st2 i).map Sig.value).getD JSVal.undef
                  if strictEq newv oldv then (st2, ERes.ok ())
                  else notify fuel st2 i
              | (st2, ERes.thrownE c) => (st2, ERes.thrownE c)
              | (st2, ERes.circular) => (st2, ERes.circular)
              | (st2, ERes.fuelOut) => (st2, ERes.fuelOut)

termination_by structural fuel => fuel

end

/-- `Signal.prototype.value` setter (lines 54–59), including the
ComputedSignal override that throws (lines 128–130; error code 100). -/
def setValue (fuel : Nat) (st : St) (i : Nat) (v : JSVal) : St × ERes Unit :=
  match lookupSig st i with
  | none => (st, ERes.ok ())
  | some g =>
    if g.isComp then (st, ERes.thrownE 100)
    else if strictEq g.value v then (st, ERes.ok ())
    else notify fuel (updSig st i (fnSetVal v)) i

/-- `Effect.run` (lines 247–264): guards, clears dependencies, evaluates
the body with itself as the ambient computation; body errors are caught
and routed to `onError` (logged). -/
def effRunF (fuel : Nat) (st : St) (e : Nat) : St × ERes Unit :=
  match lookupEff st e with
  | none => (st, ERes.ok ())
  | some g =>
    if g.isRunning ∨ g.isDisposed then (st, ERes.ok ())
    else
      let st1 := updEff st e fnStartRun
      let st2 := clearDependenciesP st1 (CompRef.eff e)
      let prev := st2.currentComputation
      let st3 := { st2 with currentComputation := some (CompRef.eff e) }
      let st4 := logE st3 (Event.effRun e)
      match evalE fuel st4 g.effectFn with
      | (st5, ERes.ok _) =>
          (updEff { st5 with currentComputation := prev } e
             fnEndRun, ERes.ok ())
      | (st5, ERes.thrownE c) =>
          (updEff { (logE st5 (Event.effErr e c)) with currentComputation := prev } e
             fnEndRun, ERes.ok ())
      | (st5, ERes.circular) =>
          (updEff { (logE st5 (Event.effErr e 999)) with currentComputation := prev } e
             fnEndRun, ERes.ok ())
      | (st5, ERes.fuelOut) =>
          (updEff { st5 with currentComputation := prev } e
             fnEndRun, ERes.fuelOut)

/-- Drain the microtask queue: run queued effects in order; tasks queued
while draining are also processed. -/
def drain : Nat → St → St × ERes Unit
  | 0, st => (st, ERes.fuelOut)
  | fuel + 1, st =>
    match st.mtq with
    | [] => (st, ERes.ok ())
    | e :: rest =>
        match effRunF fuel { st with mtq := rest } e with
        | (st1, ERes.ok _) => drain fuel st1
        | (st1, r) => (st1, match r with
            | ERes.thrownE c => ERes.thrownE c
            | ERes.circular => ERes.circular
            | _ => ERes.fuelOut)

/-- Commands a batch body may perform: a cell write, or a throw. -/
inductive Cmd : Type
  | wr : Nat → JSVal → Cmd
  | thr : Nat → Cmd
deriving DecidableEq, Repr

/-- Run a batch body: sequential writes; a throw aborts the remainder. -/
def runCmds : Nat → St → List Cmd → St × ERes Unit
  | _, st, [] => (st, ERes.ok ())
  | _, st, Cmd.thr c :: _ => (st, ERes.thrownE c)
  | fuel, st, Cmd.wr i v :: rest =>
      match setValue fuel st i v with
      | (st1, ERes.ok _) => runCmds fuel st1 rest
      | (st1, ERes.thrownE c) => (st1, ERes.thrownE c)
      | (st1, ERes.circular) => (st1, ERes.circular)
      | (st1, ERes.fuelOut) => (st1, ERes.fuelOut)

/-- The closing pass of `batch` (lines 327–333): for each pending signal
(snapshotted), mark each of its dependents stale. -/
def closePass : Nat → St → List Nat → St × ERes Unit
  | _, st, [] => (st, ERes.ok ())
  | fuel, st, s :: rest =>
      let st0 := logE st (Event.stalePass s)
      match notifyList fuel st0 (dependentsOf st0 s) with
      | (st1, ERes.ok _) => closePass fuel st1 rest
      | (st1, ERes.thrownE c) => (st1, ERes.thrownE c)
      | (st1, ERes.circular) => (st1, ERes.circular)
      | (st1, ERes.fuelOut) => (st1, ERes.fuelOut)

/-- `batch` (lines 312–335).  A nested call just runs the body.  Otherwise
the body runs with batching on; the `finally` block always resets the flag
and performs the closing pass, and an error thrown by the closing pass
supersedes the body's error (JS `finally` semantics). -/
def batchOpen (st : St) : St := { st with isBatching := true, batchedSignals := [] }

def batchReset (st : St) : St := { st with isBatching := false, batchedSignals := [] }

/-- Set the ambient Tracker pointer (push/pop of `currentComputation`). -/
def withCC (st : St) (c : Option CompRef) : St :=
  { st with currentComputation := c }

def batchF (fuel : Nat) (st : St) (cs : List Cmd) : St × ERes Unit :=
  if st.isBatching then runCmds fuel st cs
  else
    let stA := batchOpen st
    let (st1, r) := runCmds fuel stA cs
    let pending := st1.batchedSignals
    let st2 := logE (batchReset st1) Event.batchClosed
    let (st3, r2) := closePass fuel st2 pending
    (st3, match r2 with
          | ERes.ok _ => r
          | bad => bad)

/-! ## Scenario builders -/

/-- The empty runtime state. -/
def emptySt : St :=
  { sigs := [], effs := [], currentComputation := none, isBatching := false,
    batchedSignals := [], mtq := [], nextRef := 0, log := [] }

/-- `signal(initialValue)`: install a fresh base Signal under id `i`. -/
def addCell (st : St) (i : Nat) (v : JSVal) : St :=
  { st with sigs := st.sigs ++ [(i,
      { value := v, subscribers := [], computedSignals := [], isComp := false,
        computeFn := Expr.lit JSVal.undef, dependencies := [],
        isStale := false, isComputing := false })] }

/-- `computed(fn)`: install a fresh ComputedSignal under id `i`
(value starts `undefined`, stale, not computing). -/
def addComputed (st : St) (i : Nat) (fn : Expr) : St :=
  { st with sigs := st.sigs ++ [(i,
      { value := JSVal.undef, subscribers := [], computedSignals := [],
        isComp := true, computeFn := fn, dependencies := [],
        isStale := true, isComputing := false })] }

/-- `signal.subscribe(cb)`: register subscriber id `sub`. -/
def subscribeS (st : St) (i : Nat) (sub : Nat) : St :=
  updSig st i (fun g => { g with subscribers := insertL sub g.subscribers })

/-- `effect(fn)` with `immediate: true` (the default): install the record
and run it once synchronously. -/
def addEffect (fuel : Nat) (st : St) (e : Nat) (body : Expr) : St × ERes Unit :=
  let st1 := { st with effs := st.effs ++ [(e,
      { effectFn := body, dependencies := [], isRunning := false,
        isDisposed := false })] }
  effRunF fuel st1 e

/-- Count occurrences of an event in a log. -/
def countE (ev : Event) (log : List Event) : Nat := log.count ev

/-! ## The `Steps` relation

`Steps st st'` says `st'` arises from `st` by appending a delta `t` of
events to the log, with the dependency sets of every Computation evolving
exactly as the `reg`/`cleared` events in the delta dictate, consistency of
the bidirectional edges preserved, and only events that the core runtime
(not the batch closing machinery) emits appearing in the delta. -/

/-- How one event transforms a Computation's dependency set. -/
def foldStep (d : CompRef) (ev : Event) (acc : List Nat) : List Nat :=
  match ev with
  | Event.reg d' s => if d' = d then insertL s acc else acc
  | Event.cleared d' => if d' = d then [] else acc
  | _ => acc

/-- Replay a (newest-first) event delta over a dependency set. -/
def foldDeps (d : CompRef) (t : List Event) (init : List Nat) : List Nat :=
  t.foldr (foldStep d) init

/-- Events that the core (non-batch) runtime may emit. -/
def layerEv (ev : Event) : Prop :=
  ev ≠ Event.batchClosed ∧ ∀ s, ev ≠ Event.stalePass s

def Steps (st st2 : St) : Prop :=
  ∃ t, st2.log = t ++ st.log ∧
    (∀ d, depsOf st2 d = foldDeps d t (depsOf st d)) ∧
    (∀ ev ∈ t, layerEv ev) ∧
    (consistent st → consistent st2) ∧
    st2.isBatching = st.isBatching

theorem steps_refl (st : St) : Steps st st := by
  refine ⟨[], by simp, fun d => rfl, by simp, fun h => h, rfl⟩

theorem steps_trans {st st1 st2 : St} (h1 : Steps st st1) (h2 : Steps st1 st2) :
    Steps st st2 := by
  obtain ⟨t1, hl1, hd1, he1, hc1, hb1⟩ := h1
  obtain ⟨t2, hl2, hd2, he2, hc2, hb2⟩ := h2
  refine ⟨t2 ++ t1, ?_, ?_, ?_, fun h => hc2 (hc1 h), hb2.trans hb1⟩
  · rw [hl2, hl1, List.append_assoc]
  · intro d
    rw [hd2 d, hd1 d, foldDeps, foldDeps, foldDeps, List.foldr_append]
  · intro ev hev
    rcases List.mem_append.mp hev with h | h
    · exact he2 ev h
    · exact he1 ev h

/-! ### Association-list lemmas -/

theorem lookupA_updateA_eq {α : Type} (l : List (Nat × α)) (i : Nat) (f : α → α) :
    lookupA (updateA l i f) i = (lookupA l i).map f := by
  induction l with
  | nil => simp [lookupA, updateA]
  | cons p rest ih =>
    obtain ⟨j, a⟩ := p
    by_cases h : j = i
    · subst h; simp [lookupA, updateA]
    · simp [lookupA, updateA, h, ih]

theorem lookupA_updateA_ne {α : Type} (l : List (Nat × α)) {i j : Nat}
    (f : α → α) (h : i ≠ j) :
    lookupA (updateA l i f) j = lookupA l j := by
  induction l with
  | nil => simp [lookupA, updateA]
  | cons p rest ih =>
    obtain ⟨k, a⟩ := p
    by_cases hk : k = i
    · subst hk
      simp [lookupA, updateA, h, ih]
    · simp [lookupA, updateA, hk, ih]

theorem lookupA_map {α : Type} (l : List (Nat × α)) (h : α → α) (j : Nat) :
    lookupA (l.map (fun p => (p.1, h p.2))) j = (lookupA l j).map h := by
  induction l with
  | nil => simp [lookupA]
  | cons p rest ih =>
    obtain ⟨k, a⟩ := p
    by_cases hk : k = j
    · subst hk; simp [lookupA]
    · simp [lookupA, hk, ih]

theorem lookupA_mem {α : Type} {l : List (Nat × α)} {i : Nat} {a : α}
    (h : lookupA l i = some a) : (i, a) ∈ l := by
  induction l with
  | nil => simp [lookupA] at h
  | cons p rest ih =>
    obtain ⟨k, b⟩ := p
    by_cases hk : k = i
    · subst hk
      simp [lookupA] at h
      simp [h]
    · simp [lookupA, hk] at h
      exact List.mem_cons_of_mem _ (ih h)

/-! ### `insertL` lemmas -/

theorem mem_insertL {α : Type} [DecidableEq α] {x y : α} {l : List α} :
    x ∈ insertL y l ↔ x ∈ l ∨ x = y := by
  unfold insertL
  split
  · rename_i h
    constructor
    · exact fun hx => Or.inl hx
    · rintro (hx | rfl)
      · exact hx
      · exact h
  · simp [or_comm]

theorem nodup_insertL {α : Type} [DecidableEq α] {y : α} {l : List α}
    (h : l.Nodup) : (insertL y l).Nodup := by
  unfold insertL
  split
  · exact h
  · rename_i hy
    simpa using List.Nodup.append h (List.nodup_singleton y)
      (by simpa using fun hmem => hy hmem)

/-! ### Primitive `Steps` lemmas -/

theorem consistent_congr {st st' : St}
    (hdeps : ∀ d, depsOf st' d = depsOf st d)
    (hdep : ∀ s, dependentsOf st' s = dependentsOf st s) :
    consistent st → consistent st' := by
  rintro ⟨h1, h2, h3⟩
  refine ⟨fun d s => ?_, fun s => ?_, fun d => ?_⟩
  · rw [hdeps, hdep]; exact h1 d s
  · rw [hdep]; exact h2 s
  · rw [hdeps]; exact h3 d

theorem steps_of_same {st st2 : St} (hl : st2.log = st.log)
    (hdeps : ∀ d, depsOf st2 d = depsOf st d)
    (hdep : ∀ s, dependentsOf st2 s = dependentsOf st s)
    (hb : st2.isBatching = st.isBatching) : Steps st st2 :=
  ⟨[], by simpa using hl, fun d => hdeps d, by simp,
    consistent_congr hdeps hdep, hb⟩

theorem depsOf_log (st : St) (ev : Event) (d : CompRef) :
    depsOf (logE st ev) d = depsOf st d := by
  cases d <;> rfl

theorem dependentsOf_log (st : St) (ev : Event) (s : Nat) :
    dependentsOf (logE st ev) s = dependentsOf st s := rfl

theorem steps_logE (st : St) (ev : Event)
    (hf : ∀ d acc, foldStep d ev acc = acc) (hl : layerEv ev) :
    Steps st (logE st ev) := by
  refine ⟨[ev], rfl, ?_, by simpa using hl, ?_, rfl⟩
  · intro d
    simp only [foldDeps, List.foldr_cons, List.foldr_nil, hf, depsOf_log]
  · exact consistent_congr (depsOf_log st ev) (dependentsOf_log st ev)

theorem foldStep_neutral_subCalled (i sub : Nat) (v : JSVal) :
    ∀ d acc, foldStep d (Event.subCalled i sub v) acc = acc := fun _ _ => rfl

theorem foldStep_neutral_computeEnter (i : Nat) :
    ∀ d acc, foldStep d (Event.computeEnter i) acc = acc := fun _ _ => rfl

theorem foldStep_neutral_effRun (e : Nat) :
    ∀ d acc, foldStep d (Event.effRun e) acc = acc := fun _ _ => rfl

theorem foldStep_neutral_effErr (e c : Nat) :
    ∀ d acc, foldStep d (Event.effErr e c) acc = acc := fun _ _ => rfl

theorem foldStep_neutral_staleCall (d0 : CompRef) :
    ∀ d acc, foldStep d (Event.staleCall d0) acc = acc := fun _ _ => rfl

theorem layerEv_subCalled (i sub : Nat) (v : JSVal) :
    layerEv (Event.subCalled i sub v) := ⟨by simp, by simp⟩

theorem layerEv_computeEnter (i : Nat) : layerEv (Event.computeEnter i) :=
  ⟨by simp, by simp⟩

theorem layerEv_effRun (e : Nat) : layerEv (Event.effRun e) := ⟨by simp, by simp⟩

theorem layerEv_effErr (e c : Nat) : layerEv (Event.effErr e c) :=
  ⟨by simp, by simp⟩

theorem layerEv_staleCall (d : CompRef) : layerEv (Event.staleCall d) :=
  ⟨by simp, by simp⟩

theorem layerEv_reg (d : CompRef) (s : Nat) : layerEv (Event.reg d s) :=
  ⟨by simp, by simp⟩

theorem layerEv_cleared (d : CompRef) : layerEv (Event.cleared d) :=
  ⟨by simp, by simp⟩

theorem depsOf_updSig (st : St) (i : Nat) (f : Sig → Sig)
    (hd : ∀ g, (f g).dependencies = g.dependencies) (d : CompRef) :
    depsOf (updSig st i f) d = depsOf st d := by
  cases d with
  | comp j =>
    by_cases h : i = j
    · subst h
      simp only [depsOf, lookupSig, updSig, lookupA_updateA_eq]
      cases lookupA st.sigs i <;> simp [hd]
    · simp only [depsOf, lookupSig, updSig, lookupA_updateA_ne _ f h]
  | eff e => rfl

theorem dependentsOf_updSig (st : St) (i : Nat) (f : Sig → Sig)
    (hc : ∀ g, (f g).computedSignals = g.computedSignals) (s : Nat) :
    dependentsOf (updSig st i f) s = dependentsOf st s := by
  by_cases h : i = s
  · subst h
    simp only [dependentsOf, lookupSig, updSig, lookupA_updateA_eq]
    cases lookupA st.sigs i <;> simp [hc]
  · simp only [dependentsOf, lookupSig, updSig, lookupA_updateA_ne _ f h]

theorem steps_updSig (st : St) (i : Nat) (f : Sig → Sig)
    (hd : ∀ g, (f g).dependencies = g.dependencies)
    (hc : ∀ g, (f g).computedSignals = g.computedSignals) :
    Steps st (updSig st i f) :=
  steps_of_same rfl (depsOf_updSig st i f hd) (dependentsOf_updSig st i f hc)
    rfl

theorem depsOf_updEff (st : St) (e : Nat) (f : EffRec → EffRec)
    (hd : ∀ g, (f g).dependencies = g.dependencies) (d : CompRef) :
    depsOf (updEff st e f) d = depsOf st d := by
  cases d with
  | comp j => rfl
  | eff j =>
    by_cases h : e = j
    · subst h
      simp only [depsOf, lookupEff, updEff, lookupA_updateA_eq]
      cases lookupA st.effs e <;> simp [hd]
    · simp only [depsOf, lookupEff, updEff, lookupA_updateA_ne _ f h]

theorem steps_updEff (st : St) (e : Nat) (f : EffRec → EffRec)
    (hd : ∀ g, (f g).dependencies = g.dependencies) :
    Steps st (updEff st e f) :=
  steps_of_same rfl (depsOf_updEff st e f hd) (fun _ => rfl) rfl

theorem compLive_comp {st : St} {i : Nat}
    (h : compLive st (CompRef.comp i) = true) :
    ∃ g, lookupSig st i = some g := by
  cases hl : lookupSig st i
  · simp [compLive, hl] at h
  · exact ⟨_, rfl⟩

theorem compLive_eff {st : St} {e : Nat}
    (h : compLive st (CompRef.eff e) = true) :
    ∃ g, lookupEff st e = some g := by
  cases hl : lookupEff st e
  · simp [compLive, hl] at h
  · exact ⟨_, rfl⟩

theorem isSome_lookupSig {st : St} {s : Nat}
    (h : (lookupSig st s).isSome = true) : ∃ g, lookupSig st s = some g := by
  cases hl : lookupSig st s
  · rw [hl] at h; simp at h
  · exact ⟨_, rfl⟩

theorem lookupSig_updSig_eq (st : St) (i : Nat) (f : Sig → Sig) :
    lookupSig (updSig st i f) i = (lookupSig st i).map f :=
  lookupA_updateA_eq _ _ _

theorem lookupSig_updSig_ne (st : St) {i j : Nat} (f : Sig → Sig)
    (h : i ≠ j) : lookupSig (updSig st i f) j = lookupSig st j :=
  lookupA_updateA_ne _ _ h

theorem lookupSig_updEff (st : St) (e : Nat) (f : EffRec → EffRec) (i : Nat) :
    lookupSig (updEff st e f) i = lookupSig st i := rfl

theorem lookupEff_updSig (st : St) (i : Nat) (f : Sig → Sig) (e : Nat) :
    lookupEff (updSig st i f) e = lookupEff st e := rfl

theorem lookupEff_updEff_eq (st : St) (e : Nat) (f : EffRec → EffRec) :
    lookupEff (updEff st e f) e = (lookupEff st e).map f :=
  lookupA_updateA_eq _ _ _

theorem lookupEff_updEff_ne (st : St) {e j : Nat} (f : EffRec → EffRec)
    (h : e ≠ j) : lookupEff (updEff st e f) j = lookupEff st j :=
  lookupA_updateA_ne _ _ h

theorem lookupSig_logE (st : St) (ev : Event) (i : Nat) :
    lookupSig (logE st ev) i = lookupSig st i := rfl

theorem lookupEff_logE (st : St) (ev : Event) (e : Nat) :
    lookupEff (logE st ev) e = lookupEff st e := rfl

/-- Inserting into a present signal's dependent set. -/
theorem dependentsOf_updSig_insert {st : St} {s : Nat} {gs : Sig} (d : CompRef)
    (h : lookupSig st s = some gs) :
    dependentsOf (updSig st s (fnAddDependent d)) s =
    insertL d (dependentsOf st s) := by
  simp [dependentsOf, lookupSig_updSig_eq, h, fnAddDependent]

theorem dependentsOf_updSig_ne {st : St} {i s : Nat} (f : Sig → Sig)
    (h : i ≠ s) : dependentsOf (updSig st i f) s = dependentsOf st s := by
  simp only [dependentsOf, lookupSig_updSig_ne st f h]

/-- Inserting into a present computed's dependency set. -/
theorem depsOf_updSig_insert {st : St} {i : Nat} {gi : Sig} (s : Nat)
    (h : lookupSig st i = some gi) :
    depsOf (updSig st i (fnAddDep s)) (CompRef.comp i) =
    insertL s (depsOf st (CompRef.comp i)) := by
  simp [depsOf, lookupSig_updSig_eq, h, fnAddDep]

theorem depsOf_updEff_insert {st : St} {e : Nat} {ge : EffRec} (s : Nat)
    (h : lookupEff st e = some ge) :
    depsOf (updEff st e (fnAddDepE s)) (CompRef.eff e) =
    insertL s (depsOf st (CompRef.eff e)) := by
  simp [depsOf, lookupEff_updEff_eq, h, fnAddDepE]

theorem depsOf_updSig_ne_comp {st : St} {i j : Nat} (f : Sig → Sig)
    (h : i ≠ j) : depsOf (updSig st i f) (CompRef.comp j) =
      depsOf st (CompRef.comp j) := by
  simp only [depsOf, lookupSig_updSig_ne st f h]

theorem depsOf_updEff_ne_eff {st : St} {e j : Nat} (f : EffRec → EffRec)
    (h : e ≠ j) : depsOf (updEff st e f) (CompRef.eff j) =
      depsOf st (CompRef.eff j) := by
  simp only [depsOf, lookupEff_updEff_ne st f h]

theorem fnAddDependent_deps (d : CompRef) :
    ∀ g, (fnAddDependent d g).dependencies = g.dependencies := fun _ => rfl

theorem fnAddDep_cs (s : Nat) :
    ∀ g, (fnAddDep s g).computedSignals = g.computedSignals := fun _ => rfl

/-- Characterization of `addDependencyP` when the guard holds: the edge is
inserted on both sides, everything else is untouched, and `reg d s` is
logged. -/
theorem addDependencyP_spec {st : St} {d : CompRef} {s : Nat}
    (h1 : compLive st d = true) (h2 : (lookupSig st s).isSome = true) :
    (addDependencyP st d s).log = Event.reg d s :: st.log ∧
    (∀ d2, depsOf (addDependencyP st d s) d2 =
      if d2 = d then insertL s (depsOf st d2) else depsOf st d2) ∧
    (∀ s2, dependentsOf (addDependencyP st d s) s2 =
      if s2 = s then insertL d (dependentsOf st s2) else dependentsOf st s2) := by
  have hguard : (compLive st d = true) ∧ ((lookupSig st s).isSome = true) :=
    ⟨h1, h2⟩
  obtain ⟨gs, hgs⟩ := isSome_lookupSig h2
  cases d with
  | comp i =>
    obtain ⟨gi, hgi⟩ := compLive_comp h1
    have heq : addDependencyP st (CompRef.comp i) s =
        logE (updSig (updSig st i (fnAddDep s)) s
          (fnAddDependent (CompRef.comp i))) (Event.reg (CompRef.comp i) s) := by
      unfold addDependencyP
      rw [if_pos hguard]
    rw [heq]
    refine ⟨rfl, ?_, ?_⟩
    · intro d2
      rw [depsOf_log,
        depsOf_updSig _ s (fnAddDependent (CompRef.comp i))
          (fnAddDependent_deps _) d2]
      by_cases hd2 : d2 = CompRef.comp i
      · subst hd2
        rw [if_pos rfl, depsOf_updSig_insert s hgi]
      · rw [if_neg hd2]
        cases d2 with
        | comp j =>
          have hij : i ≠ j := fun hc => hd2 (by rw [hc])
          exact depsOf_updSig_ne_comp _ hij
        | eff j => rfl
    · intro s2
      rw [dependentsOf_log]
      by_cases hs2 : s2 = s
      · subst hs2
        rw [if_pos rfl]
        obtain ⟨gm, hgm⟩ : ∃ gm, lookupSig (updSig st i (fnAddDep s2)) s2 = some gm := by
          by_cases his : i = s2
          · rw [his, lookupSig_updSig_eq]
            rw [his] at hgi
            rw [hgi]
            exact ⟨_, rfl⟩
          · rw [lookupSig_updSig_ne st _ his]
            exact ⟨gs, hgs⟩
        rw [dependentsOf_updSig_insert _ hgm,
          dependentsOf_updSig st i (fnAddDep s2) (fnAddDep_cs s2) s2]
      · rw [if_neg hs2]
        have hs2ne : s ≠ s2 := fun hc => hs2 hc.symm
        rw [dependentsOf_updSig_ne _ hs2ne,
          dependentsOf_updSig st i (fnAddDep s) (fnAddDep_cs s) s2]
  | eff e =>
    obtain ⟨ge, hge⟩ := compLive_eff h1
    have heq : addDependencyP st (CompRef.eff e) s =
        logE (updSig (updEff st e (fnAddDepE s)) s
          (fnAddDependent (CompRef.eff e))) (Event.reg (CompRef.eff e) s) := by
      unfold addDependencyP
      rw [if_pos hguard]
    rw [heq]
    refine ⟨rfl, ?_, ?_⟩
    · intro d2
      rw [depsOf_log,
        depsOf_updSig _ s (fnAddDependent (CompRef.eff e))
          (fnAddDependent_deps _) d2]
      by_cases hd2 : d2 = CompRef.eff e
      · subst hd2
        rw [if_pos rfl, depsOf_updEff_insert s hge]
      · rw [if_neg hd2]
        cases d2 with
        | comp j => rfl
        | eff j =>
          have hej : e ≠ j := fun hc => hd2 (by rw [hc])
          exact depsOf_updEff_ne_eff _ hej
    · intro s2
      rw [dependentsOf_log]
      by_cases hs2 : s2 = s
      · subst hs2
        rw [if_pos rfl]
        have hgm : lookupSig (updEff st e (fnAddDepE s2)) s2 = some gs := hgs
        rw [dependentsOf_updSig_insert _ hgm]
        rfl
      · rw [if_neg hs2]
        have hs2ne : s ≠ s2 := fun hc => hs2 hc.symm
        rw [dependentsOf_updSig_ne _ hs2ne]
        rfl


/-- `Steps` for `addDependencyP`. -/
theorem steps_addDependencyP (st : St) (d : CompRef) (s : Nat) :
    Steps st (addDependencyP st d s) := by
  by_cases hg : (compLive st d = true) ∧ ((lookupSig st s).isSome = true)
  case neg =>
    have heq : addDependencyP st d s = st := by
      unfold addDependencyP
      rw [if_neg hg]
    rw [heq]
    exact steps_refl st
  case pos =>
    obtain ⟨hlog, hdeps, hdts⟩ := addDependencyP_spec hg.1 hg.2
    have hbat : (addDependencyP st d s).isBatching = st.isBatching := by
      unfold addDependencyP
      rw [if_pos hg]
      cases d <;> rfl
    refine ⟨[Event.reg d s], by simpa using hlog, ?_, ?_, ?_, hbat⟩
    · intro d2
      rw [hdeps d2]
      by_cases hd2 : d2 = d
      · subst hd2
        simp [foldDeps, foldStep]
      · have hds : ¬ (d = d2) := fun hc => hd2 hc.symm
        simp [foldDeps, foldStep, hd2, hds]
    · intro ev hev
      rcases List.mem_singleton.mp hev with rfl
      exact layerEv_reg d s
    · rintro ⟨hc1, hc2, hc3⟩
      refine ⟨?_, ?_, ?_⟩
      · intro d2 s2
        rw [hdeps d2, hdts s2]
        by_cases hd2 : d2 = d <;> by_cases hs2 : s2 = s
        · subst hd2; subst hs2
          rw [if_pos rfl, if_pos rfl]
          simp [mem_insertL]
        · subst hd2
          rw [if_pos rfl, if_neg hs2]
          constructor
          · intro hmem
            rcases mem_insertL.mp hmem with h | h
            · exact (hc1 d2 s2).mp h
            · exact absurd h hs2
          · intro hmem
            exact mem_insertL.mpr (Or.inl ((hc1 d2 s2).mpr hmem))
        · subst hs2
          rw [if_neg hd2, if_pos rfl]
          constructor
          · intro hmem
            exact mem_insertL.mpr (Or.inl ((hc1 d2 s2).mp hmem))
          · intro hmem
            rcases mem_insertL.mp hmem with h | h
            · exact (hc1 d2 s2).mpr h
            · exact absurd h hd2
        · rw [if_neg hd2, if_neg hs2]
          exact hc1 d2 s2
      · intro s2
        rw [hdts s2]
        by_cases hs2 : s2 = s
        · rw [if_pos hs2]
          exact nodup_insertL (hc2 s2)
        · rw [if_neg hs2]
          exact hc2 s2
      · intro d2
        rw [hdeps d2]
        by_cases hd2 : d2 = d
        · rw [if_pos hd2]
          exact nodup_insertL (hc3 d2)
        · rw [if_neg hd2]
          exact hc3 d2

theorem fnFilterDependent_deps (d : CompRef) :
    ∀ g, (fnFilterDependent d g).dependencies = g.dependencies := fun _ => rfl

theorem fnClearDeps_cs :
    ∀ g, (fnClearDeps g).computedSignals = g.computedSignals := fun _ => rfl

/-- Characterization of `clearDependenciesP`. -/
theorem clearDependenciesP_spec (st : St) (d : CompRef) :
    (clearDependenciesP st d).log = Event.cleared d :: st.log ∧
    (∀ d2, depsOf (clearDependenciesP st d) d2 =
      if d2 = d then [] else depsOf st d2) ∧
    (∀ s2, dependentsOf (clearDependenciesP st d) s2 =
      (dependentsOf st s2).filter (· ≠ d)) := by
  have hsig1 : ∀ j, lookupSig (stMapFilter st d) j =
      (lookupSig st j).map (fnFilterDependent d) := by
    intro j
    exact lookupA_map st.sigs (fnFilterDependent d) j
  cases d with
  | comp i =>
    have heq : clearDependenciesP st (CompRef.comp i) =
        logE (updSig (stMapFilter st (CompRef.comp i)) i fnClearDeps)
          (Event.cleared (CompRef.comp i)) := rfl
    rw [heq]
    refine ⟨rfl, ?_, ?_⟩
    · intro d2
      rw [depsOf_log]
      by_cases hd2 : d2 = CompRef.comp i
      · subst hd2
        rw [if_pos rfl]
        show ((lookupSig _ i).map Sig.dependencies).getD [] = []
        rw [lookupSig_updSig_eq, hsig1 i]
        cases lookupSig st i <;> simp [fnClearDeps, fnFilterDependent]
      · rw [if_neg hd2]
        cases d2 with
        | comp j =>
          have hij : i ≠ j := fun hc => hd2 (by rw [hc])
          show ((lookupSig _ j).map Sig.dependencies).getD [] = _
          rw [lookupSig_updSig_ne _ _ hij, hsig1 j]
          cases hlj : lookupSig st j <;> simp [depsOf, fnFilterDependent, hlj]
        | eff j =>
          show ((lookupEff _ j).map EffRec.dependencies).getD [] = _
          rfl
    · intro s2
      rw [dependentsOf_log]
      by_cases his : i = s2
      · subst his
        show ((lookupSig _ i).map Sig.computedSignals).getD [] = _
        rw [lookupSig_updSig_eq, hsig1 i]
        cases hli : lookupSig st i <;>
          simp [dependentsOf, fnClearDeps, fnFilterDependent, hli]
      · show ((lookupSig _ s2).map Sig.computedSignals).getD [] = _
        rw [lookupSig_updSig_ne _ _ his, hsig1 s2]
        cases hls : lookupSig st s2 <;>
          simp [dependentsOf, fnFilterDependent, hls]
  | eff e =>
    have heq : clearDependenciesP st (CompRef.eff e) =
        logE (updEff (stMapFilter st (CompRef.eff e)) e fnClearDepsE)
          (Event.cleared (CompRef.eff e)) := rfl
    rw [heq]
    refine ⟨rfl, ?_, ?_⟩
    · intro d2
      rw [depsOf_log]
      by_cases hd2 : d2 = CompRef.eff e
      · subst hd2
        rw [if_pos rfl]
        show ((lookupEff _ e).map EffRec.dependencies).getD [] = []
        rw [lookupEff_updEff_eq]
        cases hle : lookupEff (stMapFilter st (CompRef.eff e)) e <;>
          simp [fnClearDepsE, hle]
      · rw [if_neg hd2]
        cases d2 with
        | comp j =>
          show ((lookupSig _ j).map Sig.dependencies).getD [] = _
          rw [lookupSig_updEff, hsig1 j]
          cases hlj : lookupSig st j <;> simp [depsOf, fnFilterDependent, hlj]
        | eff j =>
          have hej : e ≠ j := fun hc => hd2 (by rw [hc])
          show ((lookupEff _ j).map EffRec.dependencies).getD [] = _
          rw [lookupEff_updEff_ne _ _ hej]
          rfl
    · intro s2
      rw [dependentsOf_log]
      show ((lookupSig _ s2).map Sig.computedSignals).getD [] = _
      rw [lookupSig_updEff, hsig1 s2]
      cases hls : lookupSig st s2 <;>
        simp [dependentsOf, fnFilterDependent, hls]

/-- `Steps` for `clearDependenciesP`. -/
theorem steps_clearDependenciesP (st : St) (d : CompRef) :
    Steps st (clearDependenciesP st d) := by
  obtain ⟨hlog, hdeps, hdts⟩ := clearDependenciesP_spec st d
  have hbat : (clearDependenciesP st d).isBatching = st.isBatching := by
    cases d <;> rfl
  refine ⟨[Event.cleared d], by simpa using hlog, ?_, ?_, ?_, hbat⟩
  · intro d2
    rw [hdeps d2]
    by_cases hd2 : d2 = d
    · subst hd2
      simp [foldDeps, foldStep]
    · have hds : ¬ (d = d2) := fun hc => hd2 hc.symm
      simp [foldDeps, foldStep, hd2, hds]
  · intro ev hev
    rcases List.mem_singleton.mp hev with rfl
    exact layerEv_cleared d
  · rintro ⟨hc1, hc2, hc3⟩
    refine ⟨?_, ?_, ?_⟩
    · intro d2 s2
      rw [hdeps d2, hdts s2]
      by_cases hd2 : d2 = d
      · subst hd2
        rw [if_pos rfl]
        simp
      · rw [if_neg hd2]
        rw [List.mem_filter]
        simp only [decide_eq_true_eq]
        constructor
        · intro hmem
          exact ⟨(hc1 d2 s2).mp hmem, hd2⟩
        · intro hmem
          exact (hc1 d2 s2).mpr hmem.1
    · intro s2
      rw [hdts s2]
      exact List.Nodup.filter _ (hc2 s2)
    · intro d2
      rw [hdeps d2]
      by_cases hd2 : d2 = d
      · rw [if_pos hd2]
        exact List.nodup_nil
      · rw [if_neg hd2]
        exact hc3 d2


/-! ### Composite `Steps` facts and the main preservation induction -/

theorem steps_parts {st st2 : St} (h1 : st2.sigs = st.sigs)
    (h2 : st2.effs = st.effs) (h3 : st2.log = st.log)
    (h4 : st2.isBatching = st.isBatching) : Steps st st2 :=
  steps_of_same h3
    (fun d => by cases d <;> simp [depsOf, lookupSig, lookupEff, h1, h2])
    (fun s => by simp [dependentsOf, lookupSig, h1]) h4

theorem foldDeps_neutral {t : List Event}
    (h : ∀ ev ∈ t, ∀ d acc, foldStep d ev acc = acc) (d : CompRef)
    (init : List Nat) : foldDeps d t init = init := by
  induction t with
  | nil => rfl
  | cons ev rest ih =>
    have : foldDeps d (ev :: rest) init = foldStep d ev (foldDeps d rest init) :=
      rfl
    rw [this, ih (fun x hx => h x (List.mem_cons_of_mem ev hx)), h ev (List.mem_cons_self ev rest)]

theorem steps_of_log_neutral {st st2 : St} {t : List Event}
    (hs : st2.sigs = st.sigs) (he : st2.effs = st.effs)
    (hl : st2.log = t ++ st.log) (hb : st2.isBatching = st.isBatching)
    (hn : ∀ ev ∈ t, (∀ d acc, foldStep d ev acc = acc) ∧ layerEv ev) :
    Steps st st2 := by
  refine ⟨t, hl, ?_, fun ev hev => (hn ev hev).2, ?_, hb⟩
  · intro d
    rw [foldDeps_neutral (fun ev hev => (hn ev hev).1) d]
    cases d <;> simp [depsOf, lookupSig, lookupEff, hs, he]
  · refine consistent_congr ?_ ?_
    · intro d
      cases d <;> simp [depsOf, lookupSig, lookupEff, hs, he]
    · intro s2
      simp [dependentsOf, lookupSig, hs]

theorem notifySubs_eq (st : St) (i : Nat) (subs : List Nat) (v : JSVal) :
    notifySubs st i subs v =
    { st with log := (subs.map (fun u => Event.subCalled i u v)).reverse ++ st.log } := by
  induction subs generalizing st with
  | nil => simp [notifySubs]
  | cons u rest ih =>
    show notifySubs (logE st (Event.subCalled i u v)) i rest v = _
    rw [ih]
    simp [logE, List.append_assoc]

theorem steps_notifySubs (st : St) (i : Nat) (subs : List Nat) (v : JSVal) :
    Steps st (notifySubs st i subs v) := by
  rw [notifySubs_eq]
  refine steps_of_log_neutral rfl rfl rfl rfl ?_
  intro ev hev
  rw [List.mem_reverse, List.mem_map] at hev
  obtain ⟨u, _, rfl⟩ := hev
  exact ⟨foldStep_neutral_subCalled i u v, layerEv_subCalled i u v⟩

theorem steps_logE_staleCall (st : St) (d : CompRef) :
    Steps st (logE st (Event.staleCall d)) :=
  steps_logE st _ (foldStep_neutral_staleCall d) (layerEv_staleCall d)

theorem steps_logE_computeEnter (st : St) (i : Nat) :
    Steps st (logE st (Event.computeEnter i)) :=
  steps_logE st _ (foldStep_neutral_computeEnter i) (layerEv_computeEnter i)

/-- The main preservation induction over the mutual interpreter: every run
of the core runtime extends the log by core events only, replays its
`reg`/`cleared` events over every dependency set, and preserves the
bidirectional-edge invariant. -/
theorem stepsAll (fuel : Nat) :
    (∀ st e, Steps st (evalE fuel st e).1) ∧
    (∀ st i, Steps st (getValue fuel st i).1) ∧
    (∀ st i, Steps st (recompute fuel st i).1) ∧
    (∀ st i fn prev, Steps st (recomputeTail fuel st i fn prev).1) ∧
    (∀ st i, Steps st (notify fuel st i).1) ∧
    (∀ st ds, Steps st (notifyList fuel st ds).1) ∧
    (∀ st d, Steps st (markStaleC fuel st d).1) := by
  induction fuel with
  | zero =>
    refine ⟨fun st e => ?_, fun st i => ?_, fun st i => ?_,
      fun st i fn prev => ?_, fun st i => ?_, fun st ds => ?_, fun st d => ?_⟩
    · rw [evalE.eq_def]
      exact steps_refl st
    · rw [getValue.eq_def]
      exact steps_refl st
    · rw [recompute.eq_def]
      exact steps_refl st
    · rw [recomputeTail.eq_def]
      exact steps_refl st
    · rw [notify.eq_def]
      exact steps_refl st
    · rw [notifyList.eq_def]
      exact steps_refl st
    · rw [markStaleC.eq_def]
      exact steps_refl st
  | succ f ih =>
    obtain ⟨ihEval, ihGet, ihRec, ihTail, ihNot, ihNL, ihMS⟩ := ih
    have hGet : ∀ st i, Steps st (getValue (f + 1) st i).1 := by
      intro st i
      show Steps st (getValue (f + 1) st i).1
      rw [getValue]
      cases hg : lookupSig st i with
      | none => exact steps_refl st
      | some g =>
        dsimp only
        by_cases hic : g.isComp = true
        · rw [if_pos hic]
          by_cases hstale : g.isStale = true ∧ ¬ g.isComputing = true
          · rw [if_pos hstale]
            rcases hrec : recompute f st i with ⟨st1, r⟩
            have hs1 : Steps st st1 := by
              have := ihRec st i
              rw [hrec] at this
              exact this
            cases r with
            | ok u =>
              dsimp only
              cases hc : st1.currentComputation with
              | none => exact hs1
              | some d =>
                dsimp only
                by_cases hd : d ≠ CompRef.comp i
                · rw [if_pos hd]
                  exact steps_trans hs1 (steps_addDependencyP st1 d i)
                · rw [if_neg hd]
                  exact hs1
            | thrownE c => exact hs1
            | circular => exact hs1
            | fuelOut => exact hs1
          · rw [if_neg hstale]
            dsimp only
            cases hc : st.currentComputation with
            | none => exact steps_refl st
            | some d =>
              dsimp only
              by_cases hd : d ≠ CompRef.comp i
              · rw [if_pos hd]
                exact steps_addDependencyP st d i
              · rw [if_neg hd]
                exact steps_refl st
        · rw [if_neg hic]
          dsimp only
          cases hc : st.currentComputation with
          | none => exact steps_refl st
          | some d => exact steps_addDependencyP st d i
    have hEval : ∀ st e, Steps st (evalE (f + 1) st e).1 := by
      intro st e
      cases e with
      | lit v => exact steps_refl st
      | readSig i =>
        rw [evalE]
        exact ihGet st i
      | plus a b =>
        rw [evalE]
        rcases h1 : evalE f st a with ⟨st1, r1⟩
        have hs1 : Steps st st1 := by
          have := ihEval st a
          rw [h1] at this
          exact this
        cases r1 with
        | ok va =>
          dsimp only
          rcases h2 : evalE f st1 b with ⟨st2, r2⟩
          have hs2 : Steps st1 st2 := by
            have := ihEval st1 b
            rw [h2] at this
            exact this
          cases r2 <;> exact steps_trans hs1 hs2
        | thrownE c => exact hs1
        | circular => exact hs1
        | fuelOut => exact hs1
      | seqE a b =>
        rw [evalE]
        rcases h1 : evalE f st a with ⟨st1, r1⟩
        have hs1 : Steps st st1 := by
          have := ihEval st a
          rw [h1] at this
          exact this
        cases r1 with
        | ok va =>
          dsimp only
          have hs2 := ihEval st1 b
          exact steps_trans hs1 hs2
        | thrownE c => exact hs1
        | circular => exact hs1
        | fuelOut => exact hs1
      | freshObj =>
        rw [evalE]
        exact steps_parts rfl rfl rfl rfl
      | throwE c =>
        rw [evalE]
        exact steps_refl st
    have hTail : ∀ st i fn prev,
        Steps st (recomputeTail (f + 1) st i fn prev).1 := by
      intro st i fn prev
      rw [recomputeTail]
      have hs3 : Steps st { st with
          currentComputation := some (CompRef.comp i) } :=
        steps_parts rfl rfl rfl rfl
      set st3 := { st with currentComputation := some (CompRef.comp i) }
        with hst3
      have hs4 : Steps st (logE st3 (Event.computeEnter i)) :=
        steps_trans hs3 (steps_logE_computeEnter st3 i)
      set st4 := logE st3 (Event.computeEnter i) with hst4
      rcases h5 : evalE f st4 fn with ⟨st5, r5⟩
      have hs5 : Steps st st5 := by
        have := ihEval st4 fn
        rw [h5] at this
        exact steps_trans hs4 this
      have hEnd : ∀ stx : St, Steps st stx →
          Steps st (updSig { stx with currentComputation := prev } i
            fnEndCompute) := by
        intro stx hsx
        refine steps_trans hsx (steps_trans (steps_parts rfl rfl rfl rfl) ?_)
        exact steps_updSig _ i fnEndCompute (fun g2 => rfl) (fun g2 => rfl)
      cases r5 with
      | ok v =>
        dsimp only
        by_cases heqv : strictEq
            (((lookupSig st5 i).map Sig.value).getD JSVal.undef) v = true
        · rw [if_pos heqv]
          exact hEnd st5 hs5
        · rw [if_neg heqv]
          have hs6 : Steps st (updSig st5 i (fnSetVal v)) :=
            steps_trans hs5
              (steps_updSig st5 i (fnSetVal v) (fun g2 => rfl) (fun g2 => rfl))
          set st6 := updSig st5 i (fnSetVal v) with hst6
          rcases h7 : notify f st6 i with ⟨st7, r7⟩
          have hs7 : Steps st st7 := by
            have := ihNot st6 i
            rw [h7] at this
            exact steps_trans hs6 this
          cases r7 with
          | ok u => exact hEnd st7 hs7
          | thrownE c => exact hEnd st7 hs7
          | circular => exact hEnd st7 hs7
          | fuelOut => exact hEnd st7 hs7
      | thrownE c => exact hEnd st5 hs5
      | circular => exact hEnd st5 hs5
      | fuelOut => exact hEnd st5 hs5
    have hRec : ∀ st i, Steps st (recompute (f + 1) st i).1 := by
      intro st i
      rw [recompute]
      cases hg : lookupSig st i with
      | none => exact steps_refl st
      | some g =>
        dsimp only
        by_cases hcmp : g.isComputing = true
        · rw [if_pos hcmp]
          exact steps_refl st
        · rw [if_neg hcmp]
          have hs1 : Steps st (updSig st i fnStartCompute) :=
            steps_updSig st i fnStartCompute (fun g2 => rfl) (fun g2 => rfl)
          set st1 := updSig st i fnStartCompute with hst1
          have hs2 : Steps st (clearDependenciesP st1 (CompRef.comp i)) :=
            steps_trans hs1 (steps_clearDependenciesP st1 (CompRef.comp i))
          set st2 := clearDependenciesP st1 (CompRef.comp i) with hst2
          exact steps_trans hs2 (ihTail st2 i g.computeFn st2.currentComputation)
    have hNot : ∀ st i, Steps st (notify (f + 1) st i).1 := by
      intro st i
      rw [notify]
      cases hg : lookupSig st i with
      | none => exact steps_refl st
      | some g =>
        dsimp only
        have hs1 : Steps st (notifySubs st i g.subscribers g.value) :=
          steps_notifySubs st i g.subscribers g.value
        set st1 := notifySubs st i g.subscribers g.value with hst1
        by_cases hb : st1.isBatching = true
        · rw [if_pos hb]
          exact steps_trans hs1 (steps_parts rfl rfl rfl rfl)
        · rw [if_neg hb]
          exact steps_trans hs1 (ihNL st1 g.computedSignals)
    have hNL : ∀ st ds, Steps st (notifyList (f + 1) st ds).1 := by
      intro st ds
      cases ds with
      | nil => exact steps_refl st
      | cons d rest =>
        rw [notifyList]
        rcases h1 : markStaleC f st d with ⟨st1, r1⟩
        have hs1 : Steps st st1 := by
          have := ihMS st d
          rw [h1] at this
          exact this
        cases r1 with
        | ok u => exact steps_trans hs1 (ihNL st1 rest)
        | thrownE c => exact hs1
        | circular => exact hs1
        | fuelOut => exact hs1
    have hMS : ∀ st d, Steps st (markStaleC (f + 1) st d).1 := by
      intro st d
      rw [markStaleC.eq_def]
      dsimp only
      have hs0 : Steps st (logE st (Event.staleCall d)) :=
        steps_logE_staleCall st d
      set st0 := logE st (Event.staleCall d) with hst0
      cases d with
      | eff e =>
        dsimp only
        cases hg : lookupEff st0 e with
        | none => exact hs0
        | some g =>
          dsimp only
          by_cases hdisp : g.isDisposed = true
          · rw [if_pos hdisp]
            exact hs0
          · rw [if_neg hdisp]
            exact steps_trans hs0 (steps_parts rfl rfl rfl rfl)
      | comp i =>
        dsimp only
        cases hg : lookupSig st0 i with
        | none => exact hs0
        | some g =>
          dsimp only
          by_cases hstale : g.isStale = true
          · rw [if_pos hstale]
            exact hs0
          · rw [if_neg hstale]
            have hs1 : Steps st (updSig st0 i fnSetStale) :=
              steps_trans hs0
                (steps_updSig st0 i fnSetStale (fun g2 => rfl) (fun g2 => rfl))
            set st1 := updSig st0 i fnSetStale with hst1
            rcases h2 : recompute f st1 i with ⟨st2, r2⟩
            have hs2 : Steps st st2 := by
              have := ihRec st1 i
              rw [h2] at this
              exact steps_trans hs1 this
            cases r2 with
            | ok u =>
              dsimp only
              by_cases heqv : strictEq
                  (((lookupSig st2 i).map Sig.value).getD JSVal.undef) g.value = true
              · rw [if_pos heqv]
                exact hs2
              · rw [if_neg heqv]
                have := ihNot st2 i
                exact steps_trans hs2 this
            | thrownE c => exact hs2
            | circular => exact hs2
            | fuelOut => exact hs2
    exact ⟨hEval, hGet, hRec, hTail, hNot, hNL, hMS⟩


/-! ### Layer-2 `Steps` and consistency lemmas -/

theorem steps_consistent {st st2 : St} (h : Steps st st2) :
    consistent st → consistent st2 := by
  obtain ⟨t, _, _, _, hc, _⟩ := h
  exact hc

theorem steps_log {st st2 : St} (h : Steps st st2) :
    ∃ t, st2.log = t ++ st.log ∧ ∀ ev ∈ t, layerEv ev := by
  obtain ⟨t, hl, _, he, _, _⟩ := h
  exact ⟨t, hl, he⟩

theorem steps_batching {st st2 : St} (h : Steps st st2) :
    st2.isBatching = st.isBatching := by
  obtain ⟨t, _, _, _, _, hb⟩ := h
  exact hb

theorem stepsAll_notify (fuel : Nat) (st : St) (i : Nat) :
    Steps st (notify fuel st i).1 := (stepsAll fuel).2.2.2.2.1 st i

theorem stepsAll_notifyList (fuel : Nat) (st : St) (ds : List CompRef) :
    Steps st (notifyList fuel st ds).1 := (stepsAll fuel).2.2.2.2.2.1 st ds

theorem stepsAll_recomputeTail (fuel : Nat) (st : St) (i : Nat) (fn : Expr)
    (prev : Option CompRef) : Steps st (recomputeTail fuel st i fn prev).1 :=
  (stepsAll fuel).2.2.2.1 st i fn prev

theorem stepsAll_evalE (fuel : Nat) (st : St) (e : Expr) :
    Steps st (evalE fuel st e).1 := (stepsAll fuel).1 st e

theorem stepsAll_getValue (fuel : Nat) (st : St) (i : Nat) :
    Steps st (getValue fuel st i).1 := (stepsAll fuel).2.1 st i

theorem stepsAll_recompute (fuel : Nat) (st : St) (i : Nat) :
    Steps st (recompute fuel st i).1 := (stepsAll fuel).2.2.1 st i

theorem steps_setValue (fuel : Nat) (st : St) (i : Nat) (v : JSVal) :
    Steps st (setValue fuel st i v).1 := by
  unfold setValue
  cases hg : lookupSig st i with
  | none => exact steps_refl st
  | some g =>
    dsimp only
    by_cases hic : g.isComp = true
    · rw [if_pos hic]
      exact steps_refl st
    · rw [if_neg hic]
      by_cases heq : strictEq g.value v = true
      · rw [if_pos heq]
        exact steps_refl st
      · rw [if_neg heq]
        exact steps_trans
          (steps_updSig st i (fnSetVal v) (fun g2 => rfl) (fun g2 => rfl))
          (stepsAll_notify fuel _ i)

theorem steps_effRunF (fuel : Nat) (st : St) (e : Nat) :
    Steps st (effRunF fuel st e).1 := by
  unfold effRunF
  cases hg : lookupEff st e with
  | none => exact steps_refl st
  | some g =>
    dsimp only
    by_cases hguard : g.isRunning = true ∨ g.isDisposed = true
    · rw [if_pos hguard]
      exact steps_refl st
    · rw [if_neg hguard]
      have hs1 : Steps st (updEff st e fnStartRun) :=
        steps_updEff st e fnStartRun (fun g2 => rfl)
      set st1 := updEff st e fnStartRun with hst1
      have hs2 : Steps st (clearDependenciesP st1 (CompRef.eff e)) :=
        steps_trans hs1 (steps_clearDependenciesP st1 (CompRef.eff e))
      set st2 := clearDependenciesP st1 (CompRef.eff e) with hst2
      have hs3 : Steps st { st2 with
          currentComputation := some (CompRef.eff e) } :=
        steps_trans hs2 (steps_parts rfl rfl rfl rfl)
      set st3 := { st2 with currentComputation := some (CompRef.eff e) }
        with hst3
      have hs4 : Steps st (logE st3 (Event.effRun e)) :=
        steps_trans hs3
          (steps_logE st3 _ (foldStep_neutral_effRun e) (layerEv_effRun e))
      set st4 := logE st3 (Event.effRun e) with hst4
      rcases h5 : evalE fuel st4 g.effectFn with ⟨st5, r5⟩
      have hs5 : Steps st st5 := by
        have := stepsAll_evalE fuel st4 g.effectFn
        rw [h5] at this
        exact steps_trans hs4 this
      have hEnd : ∀ stx : St, Steps st stx →
          Steps st (updEff { stx with currentComputation :=
            st2.currentComputation } e fnEndRun) := by
        intro stx hsx
        exact steps_trans hsx (steps_trans (steps_parts rfl rfl rfl rfl)
          (steps_updEff _ e fnEndRun (fun g2 => rfl)))
      cases r5 with
      | ok u => exact hEnd st5 hs5
      | thrownE c =>
        refine hEnd (logE st5 (Event.effErr e c)) ?_
        exact steps_trans hs5
          (steps_logE st5 _ (foldStep_neutral_effErr e c) (layerEv_effErr e c))
      | circular =>
        refine hEnd (logE st5 (Event.effErr e 999)) ?_
        exact steps_trans hs5
          (steps_logE st5 _ (foldStep_neutral_effErr e 999) (layerEv_effErr e 999))
      | fuelOut => exact hEnd st5 hs5

theorem steps_drain (fuel : Nat) : ∀ st, Steps st (drain fuel st).1 := by
  induction fuel with
  | zero => exact fun st => steps_refl st
  | succ f ih =>
    intro st
    rw [drain]
    cases hq : st.mtq with
    | nil => exact steps_refl st
    | cons e rest =>
      dsimp only
      rcases h1 : effRunF f { st with mtq := rest } e with ⟨st1, r1⟩
      have hs1 : Steps st st1 := by
        have := steps_effRunF f { st with mtq := rest } e
        rw [h1] at this
        exact steps_trans (steps_parts rfl rfl rfl rfl) this
      cases r1 with
      | ok u => exact steps_trans hs1 (ih st1)
      | thrownE c => exact hs1
      | circular => exact hs1
      | fuelOut => exact hs1

theorem steps_runCmds (fuel : Nat) : ∀ st cs, Steps st (runCmds fuel st cs).1 := by
  intro st cs
  induction cs generalizing st with
  | nil => exact steps_refl st
  | cons c rest ih =>
    cases c with
    | thr k => exact steps_refl st
    | wr i v =>
      rw [runCmds]
      rcases h1 : setValue fuel st i v with ⟨st1, r1⟩
      have hs1 : Steps st st1 := by
        have := steps_setValue fuel st i v
        rw [h1] at this
        exact this
      cases r1 with
      | ok u => exact steps_trans hs1 (ih st1)
      | thrownE c2 => exact hs1
      | circular => exact hs1
      | fuelOut => exact hs1

theorem consistent_logE {st : St} (ev : Event) (h : consistent st) :
    consistent (logE st ev) :=
  consistent_congr (depsOf_log st ev) (dependentsOf_log st ev) h

theorem consistent_closePass (fuel : Nat) :
    ∀ st pend, consistent st → consistent (closePass fuel st pend).1 := by
  intro st pend
  induction pend generalizing st with
  | nil => exact fun h => h
  | cons s2 rest ih =>
    intro h
    rw [closePass]
    rcases h1 : notifyList fuel (logE st (Event.stalePass s2))
        (dependentsOf (logE st (Event.stalePass s2)) s2) with ⟨st1, r1⟩
    have hc1 : consistent st1 := by
      have := stepsAll_notifyList fuel (logE st (Event.stalePass s2))
        (dependentsOf (logE st (Event.stalePass s2)) s2)
      rw [h1] at this
      exact steps_consistent this (consistent_logE _ h)
    cases r1 with
    | ok u => exact ih st1 hc1
    | thrownE c => exact hc1
    | circular => exact hc1
    | fuelOut => exact hc1

theorem consistent_batchOpen {st : St} (h : consistent st) :
    consistent (batchOpen st) :=
  consistent_congr (fun d => by cases d <;> rfl) (fun s2 => rfl) h

theorem consistent_batchReset {st : St} (h : consistent st) :
    consistent (batchReset st) :=
  consistent_congr (fun d => by cases d <;> rfl) (fun s2 => rfl) h

theorem consistent_batchF (fuel : Nat) (st : St) (cs : List Cmd)
    (h : consistent st) : consistent (batchF fuel st cs).1 := by
  unfold batchF
  by_cases hb : st.isBatching = true
  · rw [if_pos hb]
    exact steps_consistent (steps_runCmds fuel st cs) h
  · rw [if_neg hb]
    dsimp only
    rcases h1 : runCmds fuel (batchOpen st) cs with ⟨st1, r1⟩
    have hc1 : consistent st1 := by
      have := steps_runCmds fuel (batchOpen st) cs
      rw [h1] at this
      exact steps_consistent this (consistent_batchOpen h)
    have hc2 : consistent (logE (batchReset st1) Event.batchClosed) :=
      consistent_logE _ (consistent_batchReset hc1)
    rcases h3 : closePass fuel (logE (batchReset st1) Event.batchClosed)
        st1.batchedSignals with ⟨st3, r3⟩
    have hc3 : consistent st3 := by
      have := consistent_closePass fuel (logE (batchReset st1)
        Event.batchClosed) st1.batchedSignals hc2
      rw [h3] at this
      exact this
    cases r3 <;> exact hc3


/-! ### Executable consistency check -/

/-- Executable sufficient condition for `consistent`, used to discharge
the invariant at concrete states. -/
def consistentChk (st : St) : Bool :=
  (st.sigs.all fun p =>
    (p.2.computedSignals.all fun d => decide (p.1 ∈ depsOf st d)) &&
    (p.2.dependencies.all fun s2 =>
      decide (CompRef.comp p.1 ∈ dependentsOf st s2)) &&
    decide p.2.computedSignals.Nodup && decide p.2.dependencies.Nodup) &&
  (st.effs.all fun p =>
    (p.2.dependencies.all fun s2 =>
      decide (CompRef.eff p.1 ∈ dependentsOf st s2)) &&
    decide p.2.dependencies.Nodup)

theorem consistent_of_chk {st : St} (h : consistentChk st = true) :
    consistent st := by
  unfold consistentChk at h
  rw [Bool.and_eq_true, List.all_eq_true, List.all_eq_true] at h
  obtain ⟨hsig, heff⟩ := h
  have hsig2 : ∀ p ∈ st.sigs,
      (∀ d ∈ p.2.computedSignals, p.1 ∈ depsOf st d) ∧
      (∀ s2 ∈ p.2.dependencies, CompRef.comp p.1 ∈ dependentsOf st s2) ∧
      p.2.computedSignals.Nodup ∧ p.2.dependencies.Nodup := by
    intro p hp
    have := hsig p hp
    simp only [Bool.and_eq_true, List.all_eq_true, decide_eq_true_eq] at this
    exact ⟨this.1.1.1, this.1.1.2, this.1.2, this.2⟩
  have heff2 : ∀ p ∈ st.effs,
      (∀ s2 ∈ p.2.dependencies, CompRef.eff p.1 ∈ dependentsOf st s2) ∧
      p.2.dependencies.Nodup := by
    intro p hp
    have := heff p hp
    simp only [Bool.and_eq_true, List.all_eq_true, decide_eq_true_eq] at this
    exact ⟨this.1, this.2⟩
  refine ⟨?_, ?_, ?_⟩
  · intro d s
    constructor
    · intro hmem
      cases d with
      | comp i =>
        cases hl : lookupSig st i with
        | none => simp [depsOf, hl] at hmem
        | some g =>
          have hmem2 : s ∈ g.dependencies := by simpa [depsOf, hl] using hmem
          exact (hsig2 (i, g) (lookupA_mem hl)).2.1 s hmem2
      | eff e =>
        cases hl : lookupEff st e with
        | none => simp [depsOf, hl] at hmem
        | some g =>
          have hmem2 : s ∈ g.dependencies := by simpa [depsOf, hl] using hmem
          exact (heff2 (e, g) (lookupA_mem hl)).1 s hmem2
    · intro hmem
      cases hl : lookupSig st s with
      | none => simp [dependentsOf, hl] at hmem
      | some g =>
        have hmem2 : d ∈ g.computedSignals := by
          simpa [dependentsOf, hl] using hmem
        exact (hsig2 (s, g) (lookupA_mem hl)).1 d hmem2
  · intro s
    cases hl : lookupSig st s with
    | none => simp [dependentsOf, hl]
    | some g =>
      have : dependentsOf st s = g.computedSignals := by simp [dependentsOf, hl]
      rw [this]
      exact (hsig2 (s, g) (lookupA_mem hl)).2.2.1
  · intro d
    cases d with
    | comp i =>
      cases hl : lookupSig st i with
      | none => simp [depsOf, hl]
      | some g =>
        have : depsOf st (CompRef.comp i) = g.dependencies := by
          simp [depsOf, hl]
        rw [this]
        exact (hsig2 (i, g) (lookupA_mem hl)).2.2.2
    | eff e =>
      cases hl : lookupEff st e with
      | none => simp [depsOf, hl]
      | some g =>
        have : depsOf st (CompRef.eff e) = g.dependencies := by
          simp [depsOf, hl]
        rw [this]
        exact (heff2 (e, g) (lookupA_mem hl)).2

/-! ### Exact dependency rebuild (claim C8 machinery) -/

/-- Replaying a delta over the empty dependency set yields exactly the
registered reads, provided the run did not clear itself mid-delta. -/
theorem mem_foldDeps_nil {d : CompRef} {t : List Event}
    (hnc : Event.cleared d ∉ t) (s : Nat) :
    s ∈ foldDeps d t [] ↔ Event.reg d s ∈ t := by
  induction t with
  | nil => simp [foldDeps]
  | cons ev rest ih =>
    have hnc2 : Event.cleared d ∉ rest := fun hx => hnc (List.mem_cons_of_mem ev hx)
    have hstep : foldDeps d (ev :: rest) [] = foldStep d ev (foldDeps d rest []) :=
      rfl
    rw [hstep]
    cases ev with
    | reg d2 s2 =>
      by_cases hd2 : d2 = d
      · subst hd2
        rw [show foldStep d2 (Event.reg d2 s2) (foldDeps d2 rest []) =
          insertL s2 (foldDeps d2 rest []) from by simp [foldStep]]
        rw [mem_insertL, ih hnc2]
        constructor
        · rintro (h | rfl)
          · exact List.mem_cons_of_mem _ h
          · exact List.mem_cons_self _ _
        · intro h
          rcases List.mem_cons.mp h with heq | h2
          · injection heq with h3 h4
            exact Or.inr h4
          · exact Or.inl h2
      · rw [show foldStep d (Event.reg d2 s2) (foldDeps d rest []) =
          foldDeps d rest [] from by simp [foldStep, hd2]]
        rw [ih hnc2]
        constructor
        · exact fun h => List.mem_cons_of_mem _ h
        · intro h
          rcases List.mem_cons.mp h with heq | h2
          · injection heq with h3 h4
            exact absurd h3.symm hd2
          · exact h2
    | cleared d2 =>
      have hd2 : d2 ≠ d := fun hx => hnc (by rw [hx]; exact List.mem_cons_self _ _)
      rw [show foldStep d (Event.cleared d2) (foldDeps d rest []) =
        foldDeps d rest [] from by simp [foldStep, hd2]]
      rw [ih hnc2]
      simp
    | subCalled a b v =>
      rw [show foldStep d (Event.subCalled a b v) (foldDeps d rest []) =
        foldDeps d rest [] from rfl, ih hnc2]
      simp
    | computeEnter a =>
      rw [show foldStep d (Event.computeEnter a) (foldDeps d rest []) =
        foldDeps d rest [] from rfl, ih hnc2]
      simp
    | effRun a =>
      rw [show foldStep d (Event.effRun a) (foldDeps d rest []) =
        foldDeps d rest [] from rfl, ih hnc2]
      simp
    | effErr a b =>
      rw [show foldStep d (Event.effErr a b) (foldDeps d rest []) =
        foldDeps d rest [] from rfl, ih hnc2]
      simp
    | staleCall a =>
      rw [show foldStep d (Event.staleCall a) (foldDeps d rest []) =
        foldDeps d rest [] from rfl, ih hnc2]
      simp
    | stalePass a =>
      rw [show foldStep d (Event.stalePass a) (foldDeps d rest []) =
        foldDeps d rest [] from rfl, ih hnc2]
      simp
    | batchClosed =>
      rw [show foldStep d Event.batchClosed (foldDeps d rest []) =
        foldDeps d rest [] from rfl, ih hnc2]
      simp

/-- A successful or failing `recompute` run first clears the old edges
(emitting `cleared`), then rebuilds the dependency set to exactly the
reads the run registered (the `reg` events of its delta). -/
theorem recompute_rebuild {fuel : Nat} {st st2 : St} {i : Nat} {g : Sig}
    {r : ERes Unit} (hg : lookupSig st i = some g)
    (hnc : g.isComputing = false)
    (hrun : recompute (fuel + 1) st i = (st2, r)) :
    ∃ t, st2.log = t ++ Event.cleared (CompRef.comp i) :: st.log ∧
      depsOf st2 (CompRef.comp i) = foldDeps (CompRef.comp i) t [] ∧
      (Event.cleared (CompRef.comp i) ∉ t →
        ∀ s, s ∈ depsOf st2 (CompRef.comp i) ↔
          Event.reg (CompRef.comp i) s ∈ t) := by
  rw [recompute] at hrun
  rw [hg] at hrun
  dsimp only at hrun
  rw [if_neg (by rw [hnc]; exact Bool.false_ne_true)] at hrun
  set stc := clearDependenciesP (updSig st i fnStartCompute) (CompRef.comp i)
    with hstc
  obtain ⟨hclog, hcdeps, _⟩ :=
    clearDependenciesP_spec (updSig st i fnStartCompute) (CompRef.comp i)
  have hclog2 : stc.log = Event.cleared (CompRef.comp i) :: st.log := by
    rw [← hstc] at hclog
    rw [hclog]
    rfl
  have hcdeps2 : depsOf stc (CompRef.comp i) = [] := by
    rw [← hstc] at hcdeps
    rw [hcdeps (CompRef.comp i), if_pos rfl]
  have hsteps : Steps stc st2 := by
    have := stepsAll_recomputeTail fuel stc i g.computeFn
      stc.currentComputation
    rw [hrun] at this
    exact this
  obtain ⟨t, hl, hd, _, _, _⟩ := hsteps
  refine ⟨t, ?_, ?_, ?_⟩
  · rw [hl, hclog2]
  · rw [hd (CompRef.comp i), hcdeps2]
  · intro hncl s
    rw [hd (CompRef.comp i), hcdeps2]
    exact mem_foldDeps_nil hncl s


/-! ### Batch-phase lemmas (claims C2 and C10) -/

/-- Deltas consisting solely of direct-subscriber notifications. -/
def onlySubEvents (t : List Event) : Prop :=
  ∀ ev ∈ t, ∃ i u v, ev = Event.subCalled i u v

theorem insertL_idem {α : Type} [DecidableEq α] (x : α) (l : List α) :
    insertL x (insertL x l) = insertL x l := by
  have hx : x ∈ insertL x l := mem_insertL.mpr (Or.inr rfl)
  unfold insertL
  rw [if_pos (by exact hx)]

/-- A cell write while a batch is open: subscribers are notified
immediately, the cell is recorded into the pending set, and nothing else
happens — no dependent is marked stale, no effect is scheduled. -/
theorem setValue_batching {fuel : Nat} {st : St} {a : Nat} {g : Sig}
    (v : JSVal) (hb : st.isBatching = true) (hg : lookupSig st a = some g)
    (hic : g.isComp = false) :
    ∃ t st1, setValue (fuel + 1) st a v = (st1, ERes.ok ()) ∧
      st1.log = t ++ st.log ∧ onlySubEvents t ∧ st1.isBatching = true ∧
      st1.mtq = st.mtq ∧
      (st1.batchedSignals = st.batchedSignals ∨
        st1.batchedSignals = insertL a st.batchedSignals) ∧
      (strictEq g.value v = false →
        st1.batchedSignals = insertL a st.batchedSignals) ∧
      st1.effs = st.effs ∧ (∀ s2, dependentsOf st1 s2 = dependentsOf st s2) ∧
      ∃ g1, lookupSig st1 a = some g1 ∧ g1.isComp = false := by
  unfold setValue
  rw [hg]
  dsimp only
  rw [if_neg (by rw [hic]; exact Bool.false_ne_true)]
  by_cases heq : strictEq g.value v = true
  · rw [if_pos heq]
    refine ⟨[], st, rfl, rfl, by intro ev h; simp at h, hb, rfl, Or.inl rfl,
      ?_, rfl, fun s2 => rfl, g, hg, hic⟩
    intro hc
    rw [heq] at hc
    cases hc
  · rw [if_neg heq]
    set stu := updSig st a (fnSetVal v) with hstu
    have hgu : lookupSig stu a = some (fnSetVal v g) := by
      rw [hstu, lookupSig_updSig_eq, hg]
      rfl
    rw [notify]
    rw [hgu]
    dsimp only
    rw [notifySubs_eq]
    rw [if_pos (by exact hb)]
    refine ⟨((fnSetVal v g).subscribers.map
      (fun u => Event.subCalled a u (fnSetVal v g).value)).reverse, _, rfl,
      by rw [hstu]; rfl, ?_, hb, by rw [hstu]; rfl, ?_, ?_, by rw [hstu]; rfl,
      ?_, ?_⟩
    · intro ev hev
      rw [List.mem_reverse, List.mem_map] at hev
      obtain ⟨u, _, rfl⟩ := hev
      exact ⟨a, u, (fnSetVal v g).value, rfl⟩
    · right
      rw [hstu]
      rfl
    · intro hc
      rw [hstu]
      rfl
    · intro s2
      rw [hstu]
      show dependentsOf (updSig st a (fnSetVal v)) s2 = dependentsOf st s2
      exact dependentsOf_updSig st a (fnSetVal v) (fun g2 => rfl) s2
    · exact ⟨fnSetVal v g, hgu, hic⟩

/-- Same-cell writes inside an open batch: the whole body delivers only
subscriber notifications, leaves the microtask queue untouched, and the
pending set gains at most the one written cell. -/
theorem runCmds_batching (fuel : Nat) (a : Nat) :
    ∀ (vs : List JSVal) (st : St) (g : Sig),
      st.isBatching = true → lookupSig st a = some g → g.isComp = false →
      ∃ t st1, runCmds (fuel + 1) st (vs.map (Cmd.wr a)) = (st1, ERes.ok ()) ∧
        st1.log = t ++ st.log ∧ onlySubEvents t ∧ st1.isBatching = true ∧
        st1.mtq = st.mtq ∧
        (st1.batchedSignals = st.batchedSignals ∨
          st1.batchedSignals = insertL a st.batchedSignals) ∧
        (∀ v0 vrest, vs = v0 :: vrest → strictEq g.value v0 = false →
          st1.batchedSignals = insertL a st.batchedSignals) ∧
        st1.effs = st.effs ∧
        (∀ s2, dependentsOf st1 s2 = dependentsOf st s2) := by
  intro vs
  induction vs with
  | nil =>
    intro st g hb hg hic
    exact ⟨[], st, rfl, rfl, by intro ev h; simp at h, hb, rfl, Or.inl rfl,
      fun v0 vrest hc => absurd hc (by simp), rfl, fun s2 => rfl⟩
  | cons v rest ih =>
    intro st g hb hg hic
    obtain ⟨t1, st1, hset, hlog1, hsub1, hb1, hmtq1, hbs1, hchg1, heffs1,
      hdts1, g1, hg1, hic1⟩ :=
      @setValue_batching fuel _ _ _ v hb hg hic
    obtain ⟨t2, st2, hrun, hlog2, hsub2, hb2, hmtq2, hbs2, _, heffs2, hdts2⟩ :=
      ih st1 g1 hb1 hg1 hic1
    have hstep : runCmds (fuel + 1) st (Cmd.wr a v :: rest.map (Cmd.wr a)) =
        (st2, ERes.ok ()) := by
      rw [runCmds, hset]
      exact hrun
    have hbs12 : st2.batchedSignals = st.batchedSignals ∨
        st2.batchedSignals = insertL a st.batchedSignals := by
      rcases hbs2 with h2 | h2 <;> rcases hbs1 with h1 | h1
      · exact Or.inl (h2.trans h1)
      · exact Or.inr (h2.trans h1)
      · exact Or.inr (by rw [h2, h1])
      · right
        rw [h2, h1, insertL_idem]
    refine ⟨t2 ++ t1, st2, hstep, ?_, ?_, hb2, hmtq2.trans hmtq1, hbs12, ?_,
      heffs2.trans heffs1, fun s2 => (hdts2 s2).trans (hdts1 s2)⟩
    · rw [hlog2, hlog1, List.append_assoc]
    · intro ev hev
      rcases List.mem_append.mp hev with h | h
      · exact hsub2 ev h
      · exact hsub1 ev h
    · intro v0 vrest hcons hne
      injection hcons with hv0 hvrest
      rw [← hv0] at hne
      have h1 : st1.batchedSignals = insertL a st.batchedSignals := hchg1 hne
      rcases hbs2 with h2 | h2
      · rw [h2, h1]
      · rw [h2, h1, insertL_idem]


/-- `Effect.markStale` (lines 241–245) on a live, undisposed effect is a
pure microtask enqueue: no synchronous run, no other state change. -/
theorem markStale_eff_queues {fuel : Nat} {st : St} {e : Nat} {g : EffRec}
    (he : lookupEff st e = some g) (hd : g.isDisposed = false) :
    markStaleC (fuel + 1) st (CompRef.eff e) =
      ({ logE st (Event.staleCall (CompRef.eff e)) with
          mtq := st.mtq ++ [e] }, ERes.ok ()) := by
  rw [markStaleC.eq_def]
  dsimp only
  rw [show lookupEff (logE st (Event.staleCall (CompRef.eff e))) e =
    some g from he]
  dsimp only
  rw [if_neg (by rw [hd]; exact Bool.false_ne_true)]
  rfl

/-- One pending cell in the closing pass: a single `stalePass` event, then
core-runtime events only. -/
theorem closePass_single (fuel : Nat) (st : St) (a : Nat) :
    ∃ st3 r tn, closePass fuel st [a] = (st3, r) ∧
      st3.log = tn ++ Event.stalePass a :: st.log ∧
      (∀ ev ∈ tn, layerEv ev) ∧ st3.isBatching = st.isBatching := by
  rw [closePass]
  set st0 := logE st (Event.stalePass a) with hst0
  rcases hnl : notifyList fuel st0 (dependentsOf st0 a) with ⟨stN, rN⟩
  have hsteps : Steps st0 stN := by
    have := stepsAll_notifyList fuel st0 (dependentsOf st0 a)
    rw [hnl] at this
    exact this
  obtain ⟨tn, hlog, hlev⟩ := steps_log hsteps
  have hbat : stN.isBatching = st.isBatching := by
    have := steps_batching hsteps
    rw [this, hst0]
    rfl
  have hlog2 : stN.log = tn ++ Event.stalePass a :: st.log := by
    rw [hlog, hst0]
    rfl
  cases rN with
  | ok u =>
    exact ⟨stN, ERes.ok (), tn, rfl, hlog2, hlev, hbat⟩
  | thrownE c => exact ⟨stN, ERes.thrownE c, tn, rfl, hlog2, hlev, hbat⟩
  | circular => exact ⟨stN, ERes.circular, tn, rfl, hlog2, hlev, hbat⟩
  | fuelOut => exact ⟨stN, ERes.fuelOut, tn, rfl, hlog2, hlev, hbat⟩

/-- Cell `0` holding `1` with computed `1 = read 0 + read 0`. -/
def writeRecomputesSt : St :=
  addComputed (addCell emptySt 0 (JSVal.prim 1)) 1
    (Expr.plus (Expr.readSig 0) (Expr.readSig 0))

/-- The state after one read of the computed (dependency established). -/
def writeRecomputesRead : St := (getValue 20 writeRecomputesSt 1).1

/-- Cell `0` plus an immediate effect `0` reading it. -/
def effTwoWritesBase : St :=
  (addEffect 20 (addCell emptySt 0 (JSVal.prim 0)) 0 (Expr.readSig 0)).1

/-- Two same-tick writes to the effect's dependency. -/
def effTwoWrites : St :=
  (setValue 20 (setValue 20 effTwoWritesBase 0 (JSVal.prim 1)).1 0
    (JSVal.prim 2)).1

/-- C3 counterexample: after two same-tick dependency writes the effect
has run only its initial (construction) time — nothing synchronous — but
the microtask queue holds TWO entries, and draining executes the body
twice (total count 3), refuting "at most one re-execution per tick". -/
theorem effectRunsPerDirtying_cex :
    countE (Event.effRun 0) effTwoWrites.log = 1 ∧
    effTwoWrites.mtq = [0, 0] ∧
    (drain 20 effTwoWrites).2 = ERes.ok () ∧
    countE (Event.effRun 0) ((drain 20 effTwoWrites).1).log = 3 := by
  refine ⟨by decide, by decide, by decide, by decide⟩

/-- C3 (amended): a dependency write never runs the Effect synchronously —
`Effect.markStale` only appends one microtask per dirtying event (with no
`effRun` and no coalescing of queue entries); the body executes only when
the queue is drained. -/
theorem markStale_effect_only_queues {st : St} {e : Nat} {g : EffRec}
    (f : Nat) (he : lookupEff st e = some g) (hd : g.isDisposed = false) :
    markStaleC (f + 1) st (CompRef.eff e) =
      ({ logE st (Event.staleCall (CompRef.eff e)) with
          mtq := st.mtq ++ [e] }, ERes.ok ()) :=
  markStale_eff_queues he hd

/-- C3 amended-theorem witness at the concrete scenario. -/
theorem markStale_effect_only_queues_witness :
    markStaleC 20 effTwoWritesBase (CompRef.eff 0) =
      ({ logE effTwoWritesBase (Event.staleCall (CompRef.eff 0)) with
          mtq := effTwoWritesBase.mtq ++ [0] }, ERes.ok ()) :=
  markStale_effect_only_queues 19 (by rfl) (by rfl)

/-! ## Claim C4 -/

/-- A computed whose compute function always throws (code 7). -/
def throwingComp : St := addComputed emptySt 0 (Expr.throwE 7)

/-- C4 counterexample: the first read throws (as claimed), but afterwards
`isStale` is `false` — the computed is cached as clean — and the second
read silently returns the stale cached `undefined` without re-invoking the
compute function (the `computeEnter` count stays 1), refuting "the next
read re-invokes the compute function". -/
theorem throwLeavesClean_cex :
    (getValue 20 throwingComp 0).2 = ERes.thrownE 7 ∧
    ((lookupSig (getValue 20 throwingComp 0).1 0).map Sig.isStale) =
      some false ∧
    (getValue 20 (getValue 20 throwingComp 0).1 0).2 = ERes.ok JSVal.undef ∧
    countE (Event.computeEnter 0)
      ((getValue 20 (getValue 20 throwingComp 0).1 0).1).log = 1 := by
  refine ⟨by decide, by decide, by decide, by decide⟩

/-- C4 (amended): a throwing compute function propagates its error
synchronously to the caller of the read, but the Computed is left marked
CLEAN (`isStale = false`, value unchanged), so the very next read returns
the stale cached value without re-invoking the compute function and
without error. -/
theorem throwingRead_leaves_clean {st : St} {i k : Nat} {g : Sig} (f : Nat)
    (hg : lookupSig st i = some g) (hcomp : g.isComp = true)
    (hfn : g.computeFn = Expr.throwE k) (hstale : g.isStale = true)
    (hcmp : g.isComputing = false) (hcc : st.currentComputation = none) :
    ∃ st2, getValue (f + 4) st i = (st2, ERes.thrownE k) ∧
      (∃ g2, lookupSig st2 i = some g2 ∧ g2.isStale = false ∧
        g2.isComputing = false ∧ g2.value = g.value ∧ g2.isComp = true) ∧
      st2.currentComputation = none ∧
      getValue (f + 4) st2 i = (st2, ERes.ok g.value) := by
  have hrec : recompute (f + 3) st i =
      recomputeTail (f + 2)
        (clearDependenciesP (updSig st i fnStartCompute) (CompRef.comp i)) i
        g.computeFn
        (clearDependenciesP (updSig st i fnStartCompute)
          (CompRef.comp i)).currentComputation := by
    rw [recompute]
    rw [hg]
    dsimp only
    rw [if_neg (by rw [hcmp]; exact Bool.false_ne_true)]
  set stc := clearDependenciesP (updSig st i fnStartCompute) (CompRef.comp i)
    with hstc
  have hgc : lookupSig stc i =
      some (fnClearDeps (fnFilterDependent (CompRef.comp i)
        (fnStartCompute g))) := by
    rw [hstc]
    show lookupSig (logE (updSig (stMapFilter (updSig st i fnStartCompute)
      (CompRef.comp i)) i fnClearDeps) (Event.cleared (CompRef.comp i))) i = _
    rw [lookupSig_logE, lookupSig_updSig_eq]
    rw [show lookupSig (stMapFilter (updSig st i fnStartCompute)
      (CompRef.comp i)) i = (lookupSig (updSig st i fnStartCompute) i).map
      (fnFilterDependent (CompRef.comp i)) from
      lookupA_map _ (fnFilterDependent (CompRef.comp i)) i]
    rw [lookupSig_updSig_eq, hg]
    rfl
  have hccc : stc.currentComputation = none := by
    rw [hstc]
    show st.currentComputation = none
    exact hcc
  have htail : recomputeTail (f + 2) stc i g.computeFn
      stc.currentComputation =
      (updSig (withCC (logE (withCC stc (some (CompRef.comp i)))
        (Event.computeEnter i)) stc.currentComputation) i fnEndCompute,
        ERes.thrownE k) := by
    rw [hfn]
    rfl
  set st2 := updSig (withCC (logE (withCC stc (some (CompRef.comp i)))
    (Event.computeEnter i)) stc.currentComputation) i fnEndCompute with hst2
  have hg2 : lookupSig st2 i = some (fnEndCompute (fnClearDeps
      (fnFilterDependent (CompRef.comp i) (fnStartCompute g)))) := by
    rw [hst2, lookupSig_updSig_eq]
    rw [show lookupSig (withCC (logE (withCC stc (some (CompRef.comp i)))
      (Event.computeEnter i)) stc.currentComputation) i = lookupSig stc i
      from rfl]
    rw [hgc]
    rfl
  have hcc2 : st2.currentComputation = none := by
    rw [hst2]
    show stc.currentComputation = none
    exact hccc
  have hread1 : getValue (f + 4) st i = (st2, ERes.thrownE k) := by
    rw [getValue]
    rw [hg]
    dsimp only
    rw [if_pos hcomp]
    rw [if_pos ⟨hstale, by rw [hcmp]; exact Bool.false_ne_true⟩]
    rw [hrec, htail]
  have hread2 : getValue (f + 4) st2 i = (st2, ERes.ok g.value) := by
    rw [getValue]
    rw [hg2]
    dsimp only
    rw [if_pos (show (fnEndCompute (fnClearDeps (fnFilterDependent
      (CompRef.comp i) (fnStartCompute g)))).isComp = true from hcomp)]
    rw [if_neg (by
      intro hcon
      exact Bool.false_ne_true hcon.1)]
    dsimp only
    rw [hcc2]
    dsimp only
    rw [hg2]
    rfl
  exact ⟨st2, hread1,
    ⟨fnEndCompute (fnClearDeps (fnFilterDependent (CompRef.comp i)
      (fnStartCompute g))), hg2, rfl, rfl, rfl, hcomp⟩, hcc2, hread2⟩

/-- C4 amended-theorem witness at the concrete always-throwing computed. -/
theorem throwingRead_leaves_clean_witness :
    ∃ st2, getValue 20 throwingComp 0 = (st2, ERes.thrownE 7) ∧
      (∃ g2, lookupSig st2 0 = some g2 ∧ g2.isStale = false ∧
        g2.isComputing = false ∧ g2.value = JSVal.undef ∧ g2.isComp = true) ∧
      st2.currentComputation = none ∧
      getValue 20 st2 0 = (st2, ERes.ok JSVal.undef) :=
  throwingRead_leaves_clean (g :=
    { value := JSVal.undef, subscribers := [], computedSignals := [],
      isComp := true, computeFn := Expr.throwE 7, dependencies := [],
      isStale := true, isComputing := false }) 16 (by rfl) (by rfl) (by rfl)
    (by rfl) (by rfl) (by rfl)

/-! ## Claim C5 -/

/-- Cell `0` holding `0` with direct subscriber `5`. -/
def batchSubSt : St := subscribeS (addCell emptySt 0 (JSVal.prim 0)) 0 5

/-- C2 counterexample: batching two writes, the full log shows subscriber
`5` was notified TWICE, and both notifications happened during `fn`
(they precede the `batchClosed` marker): direct-subscriber notification is
NOT deferred and is delivered once per write, refuting "no notification is
delivered during fn ... at most one notification regardless of N". -/
theorem batch_notifies_subscribers_cex :
    ((batchF 20 batchSubSt
      [Cmd.wr 0 (JSVal.prim 1), Cmd.wr 0 (JSVal.prim 2)]).1).log =
    [Event.stalePass 0, Event.batchClosed,
     Event.subCalled 0 5 (JSVal.prim 2),
     Event.subCalled 0 5 (JSVal.prim 1)] := by
  decide

/-- Collapse of the closing-pass result as `batch` returns it. -/
def squashErr : ERes Unit → ERes Unit
  | ERes.ok _ => ERes.ok ()
  | r => r

/-- C2 (amended): during `fn` a batched same-cell write notifies direct
subscribers immediately (the body delta `tf` holds only `subCalled`
events — in particular no dependent is marked stale and no effect is
scheduled during `fn`); when the outermost batch closes, exactly one
closing pass runs (`batchClosed` appears once) and the written cell is
swept at most once regardless of how many writes targeted it (the pending
set deduplicates). -/
theorem batch_defers_dependent_marking {st : St} {a : Nat} {g : Sig}
    (f : Nat) (vs : List JSVal) (hb : st.isBatching = false)
    (hg : lookupSig st a = some g) (hic : g.isComp = false) :
    ∃ st3 r tc tf,
      batchF (f + 1) st (vs.map (Cmd.wr a)) = (st3, r) ∧
      st3.log = tc ++ Event.batchClosed :: tf ++ st.log ∧
      onlySubEvents tf ∧
      Event.batchClosed ∉ tc ∧
      countE (Event.stalePass a) tc ≤ 1 ∧
      (∀ s2, s2 ≠ a → Event.stalePass s2 ∉ tc) ∧
      st3.isBatching = false := by
  obtain ⟨tf, st1, hrun, hlog1, hsub1, hb1, hmtq1, hbs1, _, _, _⟩ :=
    runCmds_batching f a vs (batchOpen st) g rfl hg hic
  have hbf : batchF (f + 1) st (vs.map (Cmd.wr a)) =
      (match closePass (f + 1) (logE (batchReset st1) Event.batchClosed)
        st1.batchedSignals with
       | (st3, ERes.ok u) => (st3, ERes.ok ())
       | (st3, bad) => (st3, bad)) := by
    unfold batchF
    rw [if_neg (by rw [hb]; exact Bool.false_ne_true)]
    dsimp only
    rw [hrun]
    dsimp only
    rcases closePass (f + 1) (logE (batchReset st1) Event.batchClosed)
      st1.batchedSignals with ⟨st3, r3⟩
    cases r3 <;> rfl
  have hlog1b : st1.log = tf ++ st.log := hlog1
  rcases hbs1 with hpend | hpend
  · -- no effective write: pending set empty, the pass sweeps nothing
    have hclose : closePass (f + 1) (logE (batchReset st1) Event.batchClosed)
        st1.batchedSignals = (logE (batchReset st1) Event.batchClosed,
        ERes.ok ()) := by
      rw [hpend]
      rfl
    refine ⟨logE (batchReset st1) Event.batchClosed, ERes.ok (), [], tf,
      ?_, ?_, hsub1, by simp, by simp [countE], by simp, rfl⟩
    · rw [hbf, hclose]
    · show Event.batchClosed :: st1.log = [] ++ Event.batchClosed :: tf ++ st.log
      rw [hlog1b]
      rfl
  · -- one pending cell: a single sweep of `a`
    have hpend2 : st1.batchedSignals = [a] := by
      rw [hpend]
      rfl
    obtain ⟨stN, rP, tn, hcp, hlogN, hlevN, hbatN⟩ :=
      closePass_single (f + 1) (logE (batchReset st1) Event.batchClosed) a
    have hbf2 : batchF (f + 1) st (vs.map (Cmd.wr a)) =
        (stN, squashErr rP) := by
      rw [hbf, hpend2]
      simp only [hcp]
      cases rP <;> rfl
    refine ⟨stN, squashErr rP,
      tn ++ [Event.stalePass a], tf, hbf2, ?_, hsub1, ?_, ?_, ?_, ?_⟩
    · rw [hlogN]
      show _ = (tn ++ [Event.stalePass a]) ++ Event.batchClosed :: tf ++ st.log
      rw [show (logE (batchReset st1) Event.batchClosed).log =
        Event.batchClosed :: st1.log from rfl, hlog1b]
      simp [List.append_assoc]
    · intro hmem
      rcases List.mem_append.mp hmem with h | h
      · exact (hlevN Event.batchClosed h).1 rfl
      · rcases List.mem_singleton.mp h with h2
        cases h2
    · rw [countE, List.count_append]
      have h0 : (tn.count (Event.stalePass a)) = 0 := by
        rw [List.count_eq_zero]
        intro hmem
        exact (hlevN (Event.stalePass a) hmem).2 a rfl
      rw [h0]
      simp
    · intro s2 hs2 hmem
      rcases List.mem_append.mp hmem with h | h
      · exact (hlevN (Event.stalePass s2) h).2 s2 rfl
      · rcases List.mem_singleton.mp h with h2
        injection h2 with h3
        exact hs2 h3
    · rw [hbatN]
      rfl

/-- C2 amended-theorem witness at the concrete subscriber scenario. -/
theorem batch_defers_dependent_marking_witness :
    ∃ st3 r tc tf,
      batchF 20 batchSubSt
        ([JSVal.prim 1, JSVal.prim 2].map (Cmd.wr 0)) = (st3, r) ∧
      st3.log = tc ++ Event.batchClosed :: tf ++ batchSubSt.log ∧
      onlySubEvents tf ∧
      Event.batchClosed ∉ tc ∧
      countE (Event.stalePass 0) tc ≤ 1 ∧
      (∀ s2, s2 ≠ 0 → Event.stalePass s2 ∉ tc) ∧
      st3.isBatching = false :=
  batch_defers_dependent_marking (g :=
    { value := JSVal.prim 0, subscribers := [5], computedSignals := [],
      isComp := false, computeFn := Expr.lit JSVal.undef, dependencies := [],
      isStale := false, isComputing := false }) 19
    [JSVal.prim 1, JSVal.prim 2] (by rfl) (by rfl) (by rfl)


/-! ## Claim C9 -/

/-- C8: dependency sets are rebuilt exactly and the bidirectional edges
stay mirror-consistent.  Parts 1–4: every public operation (write, read,
batch, microtask drain) preserves the invariant "a Cell's dependents set
is the exact inverse of the Computations' dependency sets" (`consistent`).
Part 5: a (re)computation clears the old edges first (`cleared` logged)
and afterwards its dependency set is exactly the set of signals whose
reads were registered during that run (the `reg` events of the run's
delta): stale edges from prior runs are gone, sets are rebuilt, not
merged. -/
theorem dependency_sets_exact :
    (∀ fuel st i v, consistent st → consistent (setValue fuel st i v).1) ∧
    (∀ fuel st i, consistent st → consistent (getValue fuel st i).1) ∧
    (∀ fuel st cs, consistent st → consistent (batchF fuel st cs).1) ∧
    (∀ fuel st, consistent st → consistent (drain fuel st).1) ∧
    (∀ fuel st st2 i g r, lookupSig st i = some g → g.isComputing = false →
      recompute (fuel + 1) st i = (st2, r) →
      ∃ t, st2.log = t ++ Event.cleared (CompRef.comp i) :: st.log ∧
        depsOf st2 (CompRef.comp i) = foldDeps (CompRef.comp i) t [] ∧
        (Event.cleared (CompRef.comp i) ∉ t →
          ∀ s, s ∈ depsOf st2 (CompRef.comp i) ↔
            Event.reg (CompRef.comp i) s ∈ t)) := by
  refine ⟨?_, ?_, ?_, ?_, ?_⟩
  · intro fuel st i v h
    exact steps_consistent (steps_setValue fuel st i v) h
  · intro fuel st i h
    exact steps_consistent (stepsAll_getValue fuel st i) h
  · intro fuel st cs h
    exact consistent_batchF fuel st cs h
  · intro fuel st h
    exact steps_consistent (steps_drain fuel st) h
  · intro fuel st st2 i g r hg hnc hrun
    exact recompute_rebuild hg hnc hrun

/-- C8 witness: the invariant holds at the two-signal scenario state and
is preserved by a write; the rebuilt dependency set of the computed after
a forced recomputation matches exactly its registered reads. -/
theorem dependency_sets_exact_witness :
    consistent (setValue 20 writeRecomputesRead 0 (JSVal.prim 2)).1 ∧
    (∃ t, ((recompute 20 writeRecomputesRead 1).1).log =
        t ++ Event.cleared (CompRef.comp 1) :: writeRecomputesRead.log ∧
      depsOf (recompute 20 writeRecomputesRead 1).1 (CompRef.comp 1) =
        foldDeps (CompRef.comp 1) t [] ∧
      (Event.cleared (CompRef.comp 1) ∉ t →
        ∀ s, s ∈ depsOf (recompute 20 writeRecomputesRead 1).1
          (CompRef.comp 1) ↔ Event.reg (CompRef.comp 1) s ∈ t)) :=
  ⟨dependency_sets_exact.1 20 writeRecomputesRead 0 (JSVal.prim 2)
    (consistent_of_chk (by rfl)),
   dependency_sets_exact.2.2.2.2 19 writeRecomputesRead
    (recompute 20 writeRecomputesRead 1).1 1
    { value := JSVal.prim 2, subscribers := [], computedSignals := [],
      isComp := true,
      computeFn := Expr.plus (Expr.readSig 0) (Expr.readSig 0),
      dependencies := [0], isStale := false, isComputing := false }
    (recompute 20 writeRecomputesRead 1).2 (by rfl) (by rfl) (by rfl)⟩


/-! ## AsyncComputed (async-signals.ts)

Shallow embedding of `AsyncComputed`.  The class tracks an arbitrary set
of `Signal` dependencies; every claim about it concerns a single
dependency chain, so the model collapses the dependency edge to one
implicit cell `dep` whose current value the async compute function reads
synchronously at the start of a run (exactly the "sync dependency
capture" of `recompute`: `asyncComputeFn` runs to its first `await`
before the promise is awaited).  The compute function is a parameter
`f : JSVal → Except Nat JSVal`: `Except.ok` a resolved promise,
`Except.error c` a rejection carrying code `c`.

`AbortController` is modeled by token counting: `currentToken` names the
controller currently installed, `nextToken` is the id generator, and
`aborted` is the set of tokens whose controller has had `.abort()`
called.  `localAbortSignal.aborted` at resolution time is `t ∈ aborted`
for the run's captured token `t`.  `pending` records every run ever
started as `(token, dependency snapshot)`; `resolveRun` plays the
continuation after `await promise` for one such run.  `mtq` counts
queued `queueMicrotask(() => this.recompute())` thunks (the
`debounceMs = 0` path of `scheduleComputation`); `alog` records the
observable outcomes newest-first: `applied v` for a value store plus
`notify`, `onErr c` for an `onError` invocation. -/

/-- Observable outcome of an async run. -/
inductive AEvent where
  | applied : JSVal → AEvent
  | onErr : Nat → AEvent
deriving DecidableEq, Repr

/-- State of one `AsyncComputed` together with its single dependency. -/
structure ASt where
  dep : JSVal
  value : JSVal
  isStale : Bool
  isComputing : Bool
  currentToken : Nat
  nextToken : Nat
  aborted : List Nat
  pending : List (Nat × JSVal)
  mtq : Nat
  alog : List AEvent
deriving DecidableEq, Repr

/-- `this.abortController.abort(); this.abortController = new AbortController()`. -/
def abortCurrent (st : ASt) : ASt :=
  { st with aborted := insertL st.currentToken st.aborted,
            currentToken := st.nextToken, nextToken := st.nextToken + 1 }

/-- The synchronous prefix of a run: set flags and launch the promise
(the run captures the current token and the current dependency value). -/
def startRun (st : ASt) : ASt :=
  { st with isComputing := true, isStale := false,
            pending := st.pending ++ [(st.currentToken, st.dep)] }

/-- `AsyncComputed.recompute` up to its first `await`: abort a running
computation, bail if not stale, otherwise start a run. -/
def recomputeA (st : ASt) : ASt :=
  let st1 := if st.isComputing then abortCurrent st else st
  if st1.isStale then startRun st1 else st1

/-- `AsyncComputed.markStale`: if fresh, go stale and queue a microtask
recomputation (`scheduleComputation` with `debounceMs = 0`). -/
def markStaleA (st : ASt) : ASt :=
  if st.isStale then st else { st with isStale := true, mtq := st.mtq + 1 }

/-- A write to the dependency `Signal`: the `!==` guard of its setter,
then `notify` reaching this instance through `computedSignals` →
`markStale` (no other subscriber or dependent in the model). -/
def writeDepA (st : ASt) (v : JSVal) : ASt :=
  if strictEq st.dep v then st else markStaleA { st with dep := v }

/-- Run one queued microtask: `() => this.recompute()`. -/
def drainA (st : ASt) : ASt :=
  if st.mtq = 0 then st else recomputeA { st with mtq := st.mtq - 1 }

/-- The continuation after `await promise` of the run `(t, snap)`:
`if (localAbortSignal.aborted) return` (the `finally` guard also fails,
so an aborted run changes nothing); otherwise apply the result under the
`!==` check and notify, or route a rejection to `onError`; `finally`
clears `isComputing`. -/
def resolveRun (f : JSVal → Except Nat JSVal) (st : ASt) (t : Nat)
    (snap : JSVal) : ASt :=
  if t ∈ st.aborted then st
  else
    match f snap with
    | Except.ok result =>
        if strictEq st.value result then { st with isComputing := false }
        else { st with value := result,
                       alog := AEvent.applied result :: st.alog,
                       isComputing := false }
    | Except.error c =>
        { st with alog := AEvent.onErr c :: st.alog, isComputing := false }

/-- `AsyncComputed.dispose`: abort the current controller (dependency
and subscriber clearing have no observable effect in this model). -/
def disposeA (st : ASt) : ASt :=
  { st with aborted := insertL st.currentToken st.aborted }

/-- The constructor: fields as in `async-signals.ts` lines 40–48, then
the initial `this.recompute()`. -/
def initA (dep0 initial : JSVal) : ASt :=
  recomputeA
    { dep := dep0, value := initial, isStale := true, isComputing := false,
      currentToken := 0, nextToken := 1, aborted := [], pending := [],
      mtq := 0, alog := [] }

/-- Token discipline: the current token was issued by the generator,
every issued non-current token has been aborted, and every started run
holds an issued token. -/
def InvA (st : ASt) : Prop :=
  st.currentToken < st.nextToken ∧
  (∀ t, t < st.nextToken → t ≠ st.currentToken → t ∈ st.aborted) ∧
  (∀ p ∈ st.pending, p.1 < st.nextToken)

theorem invA_abortCurrent (st : ASt) (h : InvA st) : InvA (abortCurrent st) := by
  obtain ⟨h1, h2, h3⟩ := h
  refine ⟨Nat.lt_succ_self _, ?_, ?_⟩
  · intro t ht hne
    have ht2 : t < st.nextToken := by
      rcases Nat.lt_succ_iff_lt_or_eq.mp ht with h | h
      · exact h
      · exact absurd h hne
    rcases eq_or_ne t st.currentToken with h | h
    · rw [h]; exact mem_insertL.mpr (Or.inr rfl)
    · exact mem_insertL.mpr (Or.inl (h2 t ht2 h))
  · intro p hp
    exact Nat.lt_succ_of_lt (h3 p hp)

theorem invA_startRun (st : ASt) (h : InvA st) : InvA (startRun st) := by
  obtain ⟨h1, h2, h3⟩ := h
  refine ⟨h1, h2, ?_⟩
  intro p hp
  rcases List.mem_append.mp hp with h | h
  · exact h3 p h
  · rcases List.mem_singleton.mp h with rfl
    exact h1

theorem invA_recomputeA (st : ASt) (h : InvA st) : InvA (recomputeA st) := by
  rw [recomputeA]
  by_cases hc : st.isComputing <;> simp only [hc, if_true, if_false, Bool.false_eq_true]
  · have h1 := invA_abortCurrent st h
    by_cases hs : (abortCurrent st).isStale <;>
      simp only [hs, if_true, if_false, Bool.false_eq_true]
    · exact invA_startRun _ h1
    · exact h1
  · by_cases hs : st.isStale <;>
      simp only [hs, if_true, if_false, Bool.false_eq_true]
    · exact invA_startRun _ h
    · exact h

theorem invA_markStaleA (st : ASt) (h : InvA st) : InvA (markStaleA st) := by
  rw [markStaleA]
  by_cases hs : st.isStale <;> simp only [hs, if_true, if_false, Bool.false_eq_true]
  · exact h
  · exact h

theorem invA_writeDepA (st : ASt) (v : JSVal) (h : InvA st) :
    InvA (writeDepA st v) := by
  rw [writeDepA]
  by_cases he : strictEq st.dep v <;>
    simp only [he, if_true, if_false, Bool.false_eq_true]
  · exact h
  · exact invA_markStaleA _ h

theorem invA_drainA (st : ASt) (h : InvA st) : InvA (drainA st) := by
  rw [drainA]
  by_cases hm : st.mtq = 0 <;> simp only [hm, if_true, if_false]
  · exact h
  · exact invA_recomputeA _ h

theorem invA_resolveRun (f : JSVal → Except Nat JSVal) (st : ASt) (t : Nat)
    (snap : JSVal) (h : InvA st) : InvA (resolveRun f st t snap) := by
  rw [resolveRun]
  by_cases ha : t ∈ st.aborted <;> simp only [ha, if_true, if_false]
  · exact h
  · obtain ⟨h1, h2, h3⟩ := h
    cases f snap with
    | ok result =>
        by_cases he : strictEq st.value result <;>
          simp only [he, if_true, if_false, Bool.false_eq_true]
        · exact ⟨h1, h2, h3⟩
        · exact ⟨h1, h2, h3⟩
    | error c => exact ⟨h1, h2, h3⟩

theorem invA_disposeA (st : ASt) (h : InvA st) : InvA (disposeA st) := by
  obtain ⟨h1, h2, h3⟩ := h
  exact ⟨h1, fun t ht hne => mem_insertL.mpr (Or.inl (h2 t ht hne)), h3⟩

theorem invA_initA (dep0 initial : JSVal) : InvA (initA dep0 initial) := by
  refine invA_recomputeA _ ?_
  refine ⟨Nat.zero_lt_one, ?_, ?_⟩
  · intro t ht hne
    interval_cases t
    exact absurd rfl hne
  · intro p hp
    cases hp

/-- A run whose token has been aborted resolves to nothing at all. -/
theorem resolveRun_aborted (f : JSVal → Except Nat JSVal) (st : ASt)
    (t : Nat) (snap : JSVal) (ha : t ∈ st.aborted) :
    resolveRun f st t snap = st := by
  rw [resolveRun, if_pos ha]

/-- Identity compute function: the promise resolves with the dependency
snapshot itself. -/
def fidA : JSVal → Except Nat JSVal := fun v => Except.ok v

/-- State after the constructor launches run 0, the dependency is
written twice before that run resolves, and the queued microtask
recomputation launches run 1 (aborting run 0). -/
def asyncMid : ASt :=
  drainA (writeDepA (writeDepA (initA (JSVal.prim 0) JSVal.undef)
    (JSVal.prim 1)) (JSVal.prim 2))

/-- `asyncMid` after the superseded run 0 resolves. -/
def asyncFirstResolved : ASt := resolveRun fidA asyncMid 0 (JSVal.prim 0)

/-- `asyncFirstResolved` after run 1 resolves. -/
def asyncTwoWrites : ASt := resolveRun fidA asyncFirstResolved 1 (JSVal.prim 2)


/-- C6: an async run's result is applied only when its token is still
current.  Parts 1–4: the token discipline `InvA` holds of a fresh
instance and is preserved by every operation.  Part 5: resolving any
started run whose token is no longer the current one changes nothing at
all — the superseded result is silently discarded, never stored, never
notified.  Part 6 (two-writes scenario): the constructor launches run 0
reading `prim 0`; the dependency is written to `prim 1` and then `prim 2`
before run 0 resolves; the single queued recomputation launches run 1
reading `prim 2` (the value at the *second* write) and aborts run 0;
resolving run 0 is a no-op (value still `undefined`, no events), and
after run 1 resolves the published value is `prim 2` with exactly one
`applied` notification. -/
theorem superseded_run_discarded :
    (∀ d v, InvA (initA d v)) ∧
    (∀ st, InvA st → InvA (recomputeA st) ∧ InvA (markStaleA st) ∧
      InvA (drainA st) ∧ InvA (disposeA st)) ∧
    (∀ st v, InvA st → InvA (writeDepA st v)) ∧
    (∀ f st t snap, InvA st → InvA (resolveRun f st t snap)) ∧
    (∀ f st t snap, InvA st → (t, snap) ∈ st.pending →
      t ≠ st.currentToken → resolveRun f st t snap = st) ∧
    (asyncMid.pending = [(0, JSVal.prim 0), (1, JSVal.prim 2)] ∧
      asyncMid.currentToken = 1 ∧
      asyncFirstResolved = asyncMid ∧ asyncFirstResolved.value = JSVal.undef ∧
      asyncFirstResolved.alog = [] ∧ asyncTwoWrites.value = JSVal.prim 2 ∧
      asyncTwoWrites.alog = [AEvent.applied (JSVal.prim 2)]) := by
  refine ⟨invA_initA, ?_, invA_writeDepA, invA_resolveRun, ?_, ?_⟩
  · intro st h
    exact ⟨invA_recomputeA st h, invA_markStaleA st h, invA_drainA st h,
      invA_disposeA st h⟩
  · intro f st t snap h hp hne
    obtain ⟨h1, h2, h3⟩ := h
    exact resolveRun_aborted f st t snap (h2 t (h3 (t, snap) hp) hne)
  · exact ⟨by decide, by decide, by decide, by decide, by decide,
      by decide, by decide⟩

/-- C6 witness: the token discipline holds at the concrete mid-flight
state, and resolving the superseded run 0 there is a no-op. -/
theorem superseded_run_discarded_witness :
    InvA asyncMid ∧ (0, JSVal.prim 0) ∈ asyncMid.pending ∧
    (0 : Nat) ≠ asyncMid.currentToken ∧
    resolveRun fidA asyncMid 0 (JSVal.prim 0) = asyncMid :=
  have hinv : InvA asyncMid := ⟨by decide, by decide, by decide⟩
  ⟨hinv, by decide, by decide,
   superseded_run_discarded.2.2.2.2.1 fidA asyncMid 0 (JSVal.prim 0) hinv
     (by decide) (by decide)⟩

/-- Always-rejecting compute function (error code 9). -/
def frejA : JSVal → Except Nat JSVal := fun _ => Except.error 9

/-- Mid-flight state for the rejection scenario: the constructor
launches run 0 reading `prim 0`, the dependency is written once before
it resolves, and the queued recomputation launches run 1, aborting
run 0.  The instance is never disposed. -/
def asyncRejMid : ASt :=
  drainA (writeDepA (initA (JSVal.prim 0) JSVal.undef) (JSVal.prim 1))

/-- C7 counterexample: run 0's future rejects (error code 9) and the
instance was never disposed, yet resolving it changes nothing — no
`onErr` event ever appears, because the run was superseded and the
`catch` branch is guarded by `!localAbortSignal.aborted`.  This refutes
"for every AsyncComputed whose async function's future rejects (and
which has not been disposed), the rejection is routed to onError". -/
theorem asyncRejection_swallowed_cex :
    frejA (JSVal.prim 0) = Except.error 9 ∧
    (0, JSVal.prim 0) ∈ asyncRejMid.pending ∧
    resolveRun frejA asyncRejMid 0 (JSVal.prim 0) = asyncRejMid ∧
    asyncRejMid.alog = [] :=
  ⟨rfl, by decide, by decide, by decide⟩

/-- C7 (amended): a rejection of a run whose token is NOT aborted — i.e.
a run that is still the current one of a non-disposed instance — is
routed to `onError` (one `onErr` event), the stored value is left
unchanged, no `applied` event fires, and `isComputing` is cleared; a
rejection of an aborted run (superseded or disposed) is silently
swallowed, the state fully unchanged. -/
theorem asyncRejection_routed (f : JSVal → Except Nat JSVal) (st : ASt)
    (t : Nat) (snap : JSVal) (c : Nat) (hf : f snap = Except.error c) :
    (t ∉ st.aborted →
      resolveRun f st t snap =
        { st with alog := AEvent.onErr c :: st.alog,
                  isComputing := false }) ∧
    (t ∈ st.aborted → resolveRun f st t snap = st) := by
  constructor
  · intro ha
    rw [resolveRun, if_neg ha, hf]
  · intro ha
    exact resolveRun_aborted f st t snap ha

/-- C7 witness: resolving the still-current rejecting run 1 at the
concrete mid-flight state produces exactly one `onErr 9` event with the
value untouched. -/
theorem asyncRejection_routed_witness :
    frejA (JSVal.prim 1) = Except.error 9 ∧ 1 ∉ asyncRejMid.aborted ∧
    resolveRun frejA asyncRejMid 1 (JSVal.prim 1) =
      { asyncRejMid with alog := AEvent.onErr 9 :: asyncRejMid.alog,
                         isComputing := false } :=
  ⟨rfl, by decide,
   (asyncRejection_routed frejA asyncRejMid 1 (JSVal.prim 1) 9 rfl).1
     (by decide)⟩

end Signals